import Mathlib

/-!
Verification of the CanonPtr pointer-tagging pass
(`llvm/lib/Transforms/Utils/CanonPtr.cpp` and its header).

The development shallowly embeds the pass:
* the integer value computed by the emitted tagging sequence
  (`canonNewPtrInt`) is translated line by line from the IRBuilder calls in
  `runOnFunc` (lines 140-177);
* the eligibility filter `shouldInstrument` (lines 75-84);
* the vtable heuristic `isVtableGep` (lines 86-104), the candidate scan and
  the per-candidate rewrite of `runOnFunc` (lines 106-181), over a small IR
  model of instructions with identifier-based use edges;
* the `invoke` case of `getInsertPointAfter` (lines 35-53), over a small
  control-flow-graph model.

Symbolic names are modelled as `List Char` so that all predicates reduce in
the kernel; `strStartsWith` plays the role of `StringRef::starts_with`.
-/

namespace CanonPtr

/-- Symbolic value names, as plain character lists. -/
abbrev Str := List Char

/-- Structural version of `StringRef::starts_with` on character lists. -/
def strStartsWith : Str → Str → Bool
  | _, [] => true
  | [], _ :: _ => false
  | c :: s, p :: ps => c == p && strStartsWith s ps

/-! ## The value computed by the emitted sequence

`runOnFunc` (CanonPtr.cpp lines 140-177) emits, after each rewritten GEP:
`ptrtoint`, `lshr` by 48, `and` 1, a negation, a left shift of the byte
offset by 49, an `and` of the two, an `add`, and an `inttoptr`.  All
arithmetic is on `i64`, i.e. modulo `2^64`.  `canonNewPtrInt p diff` is the
integer value of `newptr` when `ptrtoint` of the GEP yields `p` and the
byte offset (`Diff`) has 64-bit value `diff`. -/

/-- Modulus of 64-bit machine arithmetic (`getPtrIntTy` is `i64`). -/
def W : Nat := 2 ^ 64

/-- Integer value produced by the emitted tagging sequence of `runOnFunc`
(lines 140-177), for a pointer whose 64-bit integer value is `p < W` and a
byte offset with 64-bit value `diff`. -/
def canonNewPtrInt (p diff : Nat) : Nat :=
  let upperBits := p >>> 48
  let enableSel := upperBits &&& 1
  let enableBit := (W - enableSel) % W
  let shifted := (diff <<< 49) % W
  let addOffset := shifted &&& enableBit
  (p + addOffset) % W

/-! ## Eligibility filter (`CanonPtrPass::shouldInstrument`, lines 75-84) -/

/-- Linkage kinds; the filter only distinguishes
`AvailableExternallyLinkage` from everything else. -/
inductive Linkage
  | externalLink
  | availableExternally
  | internalLink
  | weakLink
deriving Repr, DecidableEq

/-- The slice of `llvm::Function` observed by `shouldInstrument`. -/
structure FunctionDecl where
  isEmptyFn : Bool
  isDeclaration : Bool
  linkage : Linkage
  name : Str
  hasDisableSanitizerInstrumentation : Bool
  hasCanonPtrAttr : Bool
deriving Repr, DecidableEq

/-- Translation of `CanonPtrPass::shouldInstrument` (lines 75-84): a pure
function of the observed function state. -/
def shouldInstrument (F : FunctionDecl) : Bool :=
  if F.isEmptyFn then false
  else if F.isDeclaration then false
  else if F.linkage = .availableExternally then false
  else if strStartsWith F.name ("__canonptr_".data) then false
  else if F.hasDisableSanitizerInstrumentation then false
  else F.hasCanonPtrAttr

/-! ## IR model for `runOnFunc` (lines 106-181)

Values are identified by numeric ids (standing for the C++ object
pointers).  An instruction operand is either a reference to a value id or
an immediate `ConstantInt` (given by its 64-bit pattern).  A function is a
flat list of instructions (the block structure is irrelevant to the
rewrite: a GEP is neither a terminator nor a PHI, so its insertion point is
simply the next position) together with the non-instruction values
(arguments and globals) visible to it.  Instructions are never deleted, and
`replaceUsesOfWith` only edits operand lists in place, so ids are stable
throughout a run, exactly like the C++ object pointers. -/

/-- An operand: a `ConstantInt` (64-bit pattern) or a reference to the
value with the given id. -/
inductive VRef
  | constV (c : Nat)
  | ref (i : Nat)
deriving Repr, DecidableEq

/-- Metadata of one GEP index operand: its value if it is a `ConstantInt`,
the byte size its unit is scaled by under the data layout, and the symbolic
name of the index value (empty when unnamed).  Index operands are integer
values, which this pass never retargets, so their names are fixed. -/
structure Index where
  constVal : Option Int
  stride : Int
  name : Str
deriving Repr, DecidableEq

/-- The GEP-specific data of a `GetElementPtrInst`: index metadata and
whether the result type is a vector of pointers. -/
structure GepData where
  indices : List Index
  isVector : Bool
deriving Repr, DecidableEq

/-- Instruction kinds: a GEP, the integer/bit instructions the rewrite
emits, and an opaque kind for everything else. -/
inductive IKind
  | gep (d : GepData)
  | ptrtoint
  | lshr
  | andI
  | negI
  | shl
  | addI
  | mulI
  | inttoptr
  | other
deriving Repr, DecidableEq

/-- An instruction: id, symbolic name, kind, and operand list (the use
edges from this instruction to the values it consumes). -/
structure Instr where
  id : Nat
  name : Str
  kind : IKind
  ops : List VRef
deriving Repr, DecidableEq

/-- A non-instruction value visible in the function: an argument or a
module-level global (for the `dyn_cast<GlobalVariable>` test). -/
structure ExtVal where
  id : Nat
  name : Str
  isGlobalVar : Bool
deriving Repr, DecidableEq

/-- The function state `runOnFunc` mutates: its instruction list, the
external values it references, and the next fresh value id. -/
structure Func where
  instrs : List Instr
  extVals : List ExtVal
  nextId : Nat
deriving Repr, DecidableEq

/-- Look an instruction up by id (a C++ pointer dereference). -/
def findInstr (f : Func) (i : Nat) : Option Instr :=
  f.instrs.find? (fun x => x.id == i)

/-- The symbolic name of the value with id `i` (empty when unnamed). -/
def nameOf (f : Func) (i : Nat) : Str :=
  match findInstr f i with
  | some x => x.name
  | none =>
    match f.extVals.find? (fun v => v.id == i) with
    | some v => v.name
    | none => []

/-- Whether the value with id `i` is a module-level `GlobalVariable`. -/
def isGlobalVarId (f : Func) (i : Nat) : Bool :=
  match f.extVals.find? (fun v => v.id == i) with
  | some v => v.isGlobalVar
  | none => false

/-- Name of an operand (constants are unnamed). -/
def refName (f : Func) (v : VRef) : Str :=
  match v with
  | .ref i => nameOf f i
  | .constV _ => []

/-- Whether an operand is a `GlobalVariable`. -/
def refIsGlobalVar (f : Func) (v : VRef) : Bool :=
  match v with
  | .ref i => isGlobalVarId f i
  | .constV _ => false

/-- The pointer operand of a GEP: operand 0. -/
def gepBase (g : Instr) : VRef := g.ops.headD (.constV 0)

/-- Translation of `CanonPtrPass::isVtableGep` (lines 86-104): the base is
named with the "vtable" prefix, or there is exactly one index and it is
named with the "vbase.offset" prefix, or the base is a `GlobalVariable`
whose name starts with the "_ZTV" mangling prefix. -/
def isVtableGep (f : Func) (g : Instr) (d : GepData) : Bool :=
  (!(refName f (gepBase g)).isEmpty
      && strStartsWith (refName f (gepBase g)) ("vtable".data))
  || (d.indices.length == 1 &&
      (match d.indices.head? with
       | some i0 => !i0.name.isEmpty && strStartsWith i0.name ("vbase.offset".data)
       | none => false))
  || (refIsGlobalVar f (gepBase g)
      && strStartsWith (refName f (gepBase g)) ("_ZTV".data))

/-- Translation of `GEP->hasAllZeroIndices()`: every index is the constant
zero. -/
def hasAllZeroIndices (d : GepData) : Bool :=
  d.indices.all (fun i => i.constVal == some 0)

/-- The 64-bit pattern of an `APInt`/`ConstantInt` holding the integer `z`
(two's complement wrap into `[0, 2^64)`). -/
def i64 (z : Int) : Nat := (z % (2 ^ 64 : Int)).toNat

/-- Modelled from the spec: `GEP->accumulateConstantOffset(DL, ...)` (an
LLVM library routine not under `src/`).  It folds the full set of indices,
each scaled by its element/field byte size from the layout, into a single
compile-time 64-bit constant, handling negative displacements; it fails
exactly when some index is not a compile-time constant. -/
def accumulateConstantOffset (d : GepData) : Option Nat :=
  if d.indices.all (fun i => i.constVal.isSome) then
    some (i64 ((d.indices.map (fun i => i.constVal.getD 0 * i.stride)).sum))
  else none

/-- Result of the modelled `emitGEPOffset` recursion: next fresh id, the
constant remainder accumulated so far, the id of the running dynamic sum
(if any), and the emitted multiply/add instructions. -/
structure OffsetRes where
  nid : Nat
  constPart : Int
  running : Option Nat
  emitted : List Instr
deriving Repr, DecidableEq

/-- Modelled from the spec: the recursion inside `emitGEPOffset` (an LLVM
library routine not under `src/`).  Constant indices are folded into the
constant remainder; for each non-constant index a multiply of the index by
its element byte size is emitted and added into the running sum. -/
def emitGEPOffsetAux (nid : Nat) (l : List (Index × VRef)) (running : Option Nat) :
    OffsetRes :=
  match l with
  | [] => ⟨nid, 0, running, []⟩
  | (i, v) :: rest =>
    match i.constVal with
    | some c =>
      let r := emitGEPOffsetAux nid rest running
      ⟨r.nid, c * i.stride + r.constPart, r.running, r.emitted⟩
    | none =>
      match running with
      | none =>
        let m : Instr := ⟨nid, [], .mulI, [v, .constV (i64 i.stride)]⟩
        let r := emitGEPOffsetAux (nid + 1) rest (some nid)
        ⟨r.nid, r.constPart, r.running, m :: r.emitted⟩
      | some rid =>
        let m : Instr := ⟨nid, [], .mulI, [v, .constV (i64 i.stride)]⟩
        let a : Instr := ⟨nid + 1, [], .addI, [.ref rid, .ref nid]⟩
        let r := emitGEPOffsetAux (nid + 2) rest (some (nid + 1))
        ⟨r.nid, r.constPart, r.running, m :: a :: r.emitted⟩

/-- Result of synthesizing the byte offset: the value holding it, the
instructions emitted for it, and the next fresh id. -/
structure SynthRes where
  diff : VRef
  emitted : List Instr
  nid : Nat
deriving Repr, DecidableEq

/-- Modelled from the spec: `emitGEPOffset` (an LLVM library routine not
under `src/`): all per-index products are summed together with the
constant remainder. -/
def emitGEPOffset (nid : Nat) (l : List (Index × VRef)) : SynthRes :=
  let r := emitGEPOffsetAux nid l none
  match r.running with
  | none => ⟨.constV (i64 r.constPart), r.emitted, r.nid⟩
  | some rid =>
    if r.constPart = 0 then ⟨.ref rid, r.emitted, r.nid⟩
    else ⟨.ref r.nid,
          r.emitted ++ [⟨r.nid, [], .addI, [.ref rid, .constV (i64 r.constPart)]⟩],
          r.nid + 1⟩

/-- The offset computation of `runOnFunc` (lines 157-170): try
`accumulateConstantOffset`; on success `Diff` is the folded constant and
nothing is emitted, otherwise fall back to `emitGEPOffset`. -/
def synthOffset (nid : Nat) (d : GepData) (idxOps : List VRef) : SynthRes :=
  match accumulateConstantOffset d with
  | some c => ⟨.constV c, [], nid⟩
  | none => emitGEPOffset nid (d.indices.zip idxOps)

/-- `IRBuilder::CreateShl` with immediate shift amount: folded to a
constant when the operand is constant, otherwise a fresh `shl`
instruction. -/
def createShl (v : VRef) (amt : Nat) (nid : Nat) (nm : Str) : SynthRes :=
  match v with
  | .constV c => ⟨.constV ((c <<< amt) % W), [], nid⟩
  | .ref i => ⟨.ref nid, [⟨nid, nm, .shl, [.ref i, .constV amt]⟩], nid + 1⟩

/-- Result of emitting the tagging sequence for one GEP: the emitted
instructions in order and the id of the final `newptr`. -/
structure SeqRes where
  emitted : List Instr
  newPtrId : Nat
deriving Repr, DecidableEq

/-- The instruction sequence `runOnFunc` emits for one qualifying GEP
(lines 136-177): `ptrtoint`, `lshr` by 48, `and` 1, `neg`, the offset
synthesis, `shl` by 49 (folded when the offset is constant), `and` with
the enable mask, `add`, `inttoptr`. -/
def emitSequence (f : Func) (g : Instr) (d : GepData) : SeqRes :=
  let pfx := if g.name.isEmpty then ([] : Str) else g.name ++ ".".data
  let n := f.nextId
  let ptrInt : Instr := ⟨n, pfx ++ "int".data, .ptrtoint, [.ref g.id]⟩
  let upperBits : Instr := ⟨n + 1, pfx ++ "upperbits".data, .lshr, [.ref n, .constV 48]⟩
  let enableSel : Instr := ⟨n + 2, pfx ++ "enable.sel".data, .andI, [.ref (n + 1), .constV 1]⟩
  let enableBit : Instr := ⟨n + 3, pfx ++ "enable.bit".data, .negI, [.ref (n + 2)]⟩
  let so := synthOffset (n + 4) d (g.ops.drop 1)
  let sh := createShl so.diff 49 so.nid (pfx ++ "shifted".data)
  let addOffset : Instr := ⟨sh.nid, [], .andI, [sh.diff, .ref (n + 3)]⟩
  let ptrAdd : Instr := ⟨sh.nid + 1, pfx ++ "added".data, .addI, [.ref n, .ref sh.nid]⟩
  let newPtr : Instr := ⟨sh.nid + 2, pfx ++ "newptr".data, .inttoptr, [.ref (sh.nid + 1)]⟩
  ⟨[ptrInt, upperBits, enableSel, enableBit] ++ so.emitted ++ sh.emitted
      ++ [addOffset, ptrAdd, newPtr],
   sh.nid + 2⟩

/-- Splice `emitted` into the list immediately after the instruction with
id `gid` (the insertion point after a non-terminator instruction). -/
def insertAfter (l : List Instr) (gid : Nat) (emitted : List Instr) : List Instr :=
  match l with
  | [] => []
  | x :: rest =>
    if x.id == gid then x :: (emitted ++ rest)
    else x :: insertAfter rest gid emitted

/-- The rewrite of one qualifying GEP (lines 136-180): snapshot the
consumers of the GEP before emitting anything, emit the tagging sequence
after the GEP, then redirect exactly the snapshotted consumers from the
GEP to `newptr`.  The GEP itself is not deleted. -/
def rewriteGep (f : Func) (g : Instr) (d : GepData) : Func :=
  let users := f.instrs.filter (fun u => u.ops.contains (VRef.ref g.id))
  let sq := emitSequence f g d
  let inserted := insertAfter f.instrs g.id sq.emitted
  let redirected := inserted.map (fun u =>
    if users.any (fun v => v.id == u.id) then
      { u with ops := u.ops.map (fun o =>
          if o == VRef.ref g.id then VRef.ref sq.newPtrId else o) }
    else u)
  { f with instrs := redirected, nextId := sq.newPtrId + 1 }

/-- The skip tests of `runOnFunc` (lines 119-134), in source order:
all-zero indices, then the vtable heuristic, then vector result types.
Returns the GEP data when the instruction is to be rewritten. -/
def qualifies (f : Func) (g : Instr) : Option GepData :=
  match g.kind with
  | .gep d =>
    if hasAllZeroIndices d then none
    else if isVtableGep f g d then none
    else if d.isVector then none
    else some d
  | _ => none

/-- Process one snapshotted candidate by id, reading its current state;
the Bool records whether a rewrite was performed. -/
def processGepId (f : Func) (gid : Nat) : Func × Bool :=
  match findInstr f gid with
  | none => (f, false)
  | some g =>
    match qualifies f g with
    | none => (f, false)
    | some d => (rewriteGep f g d, true)

/-- Whether an instruction kind is a GEP. -/
def isGepKind : IKind → Bool
  | .gep _ => true
  | _ => false

/-- The candidate scan of `runOnFunc` (lines 112-117): every
`GetElementPtrInst` currently in the function, in order, snapshotted
before any mutation. -/
def collectGeps (f : Func) : List Instr :=
  f.instrs.filter (fun i => isGepKind i.kind)

/-- Fold the per-candidate step over a list of snapshotted candidate ids,
counting performed rewrites. -/
def runOnFuncAux (f : Func) (gids : List Nat) : Func × Nat :=
  gids.foldl
    (fun acc gid =>
      let r := processGepId acc.1 gid
      (r.1, acc.2 + (if r.2 then 1 else 0)))
    (f, 0)

/-- Translation of `CanonPtrPass::runOnFunc` (lines 106-181), also
reporting how many rewrites were performed. -/
def runOnFuncCount (f : Func) : Func × Nat :=
  runOnFuncAux f ((collectGeps f).map (fun g => g.id))

/-- The function state after one run of `runOnFunc`. -/
def runOnFunc (f : Func) : Func := (runOnFuncCount f).1

/-- Number of rewrites one run of `runOnFunc` performs. -/
def rewritesPerformed (f : Func) : Nat := (runOnFuncCount f).2

/-! ## CFG model for the `invoke` case of `getInsertPointAfter` (lines 35-53)

Blocks are identified by numeric ids.  A block carries its leading PHI
group and its terminator; the non-PHI body instructions play no role in
the edge-splitting surgery.  Predecessor edges are derived from
terminators, exactly as in LLVM. -/

/-- A PHI node: its incoming entries, each keying an incoming value id by
a predecessor block id. -/
structure Phi where
  incoming : List (Nat × Nat)
deriving Repr, DecidableEq

/-- Terminators: an exceptional call (normal and unwind successors), an
unconditional branch, or a return. -/
inductive Term
  | invokeT (normalDest unwindDest : Nat)
  | brT (dest : Nat)
  | retT
deriving Repr, DecidableEq

/-- Successor list of a terminator. -/
def Term.succs : Term → List Nat
  | .invokeT nd ud => [nd, ud]
  | .brT d => [d]
  | .retT => []

/-- A basic block: id, leading PHI group, terminator. -/
structure BB where
  bid : Nat
  phis : List Phi
  term : Term
deriving Repr, DecidableEq

/-- A control-flow graph: the ordered block list and the next fresh block
id. -/
structure CFG where
  blocks : List BB
  nextBid : Nat
deriving Repr, DecidableEq

/-- `PN->getBasicBlockIndex` followed by `PN->setIncomingBlock`: replace
the key of the first incoming entry keyed by `old` with `new`. -/
def setFirstKey (old new : Nat) : List (Nat × Nat) → List (Nat × Nat)
  | [] => []
  | e :: r => if e.1 = old then (new, e.2) :: r else e :: setFirstKey old new r

/-- Whether some incoming entry is keyed by `old`. -/
def hasKey (old : Nat) (l : List (Nat × Nat)) : Bool :=
  l.any (fun e => e.1 == old)

/-- The `while ((i = PN->getBasicBlockIndex(...)) >= 0)` loop (lines
47-48), with explicit fuel: as long as an entry keyed `old` remains,
rekey the first one.  When `new ≠ old` each step removes one `old` key,
so `l.length` fuel always suffices. -/
def rekeyFuel (old new : Nat) : Nat → List (Nat × Nat) → List (Nat × Nat)
  | 0, l => l
  | fuel + 1, l =>
    if hasKey old l then rekeyFuel old new fuel (setFirstKey old new l) else l

/-- The complete PHI-patching loop for one PHI node. -/
def rekeyAll (old new : Nat) (l : List (Nat × Nat)) : List (Nat × Nat) :=
  rekeyFuel old new l.length l

/-- `BasicBlock::Create(..., Dst)`: insert a new block immediately before
the block with id `beforeBid` (at the end if absent). -/
def insertBlockBefore (blocks : List BB) (beforeBid : Nat) (nb : BB) : List BB :=
  match blocks with
  | [] => [nb]
  | b :: r =>
    if b.bid == beforeBid then nb :: b :: r
    else b :: insertBlockBefore r beforeBid nb

/-- Result of the invoke edge split: the new graph and the id of the new
fallthrough block (whose branch is the returned insertion point: new
instructions are inserted inside it, immediately before its jump). -/
structure SplitRes where
  cfg : CFG
  newBid : Nat
deriving Repr, DecidableEq

/-- Translation of the `InvokeInst` case of `getInsertPointAfter` (lines
36-53): create a fresh block `B` before the normal destination `Dst`,
ending in a single unconditional branch to `Dst`; redirect the invoke's
normal edge to `B`; then, walking the leading PHI group of `Dst`, while a
PHI still has an incoming entry keyed by the invoke's block, rekey that
entry to `B`.  `none` when `srcBid` does not name a block ending in an
invoke. -/
def splitInvokeEdge (g : CFG) (srcBid : Nat) : Option SplitRes :=
  match g.blocks.find? (fun b => b.bid == srcBid) with
  | none => none
  | some src =>
    match src.term with
    | .invokeT nd ud =>
      let nb : BB := ⟨g.nextBid, [], .brT nd⟩
      let blocks1 := insertBlockBefore g.blocks nd nb
      let blocks2 := blocks1.map (fun b =>
        if b.bid == srcBid then { b with term := .invokeT g.nextBid ud } else b)
      let blocks3 := blocks2.map (fun b =>
        if b.bid == nd then
          { b with phis := b.phis.map (fun p => ⟨rekeyAll srcBid g.nextBid p.incoming⟩) }
        else b)
      some ⟨⟨blocks3, g.nextBid + 1⟩, g.nextBid⟩
    | _ => none

/-- Predecessors of block `b`: the blocks whose terminator lists `b` as a
successor, in block order. -/
def preds (g : CFG) (b : Nat) : List Nat :=
  (g.blocks.filter (fun blk => blk.term.succs.contains b)).map (fun blk => blk.bid)

/-- Successor list of the block with id `b`. -/
def succsOf (g : CFG) (b : Nat) : List Nat :=
  match g.blocks.find? (fun blk => blk.bid == b) with
  | some blk => blk.term.succs
  | none => []

/-- Well-formedness of a graph: block ids are pairwise distinct, and every
block id, successor id and PHI key is below the fresh-id counter. -/
def cfgWF (g : CFG) : Prop :=
  g.blocks.Pairwise (fun a b => a.bid ≠ b.bid) ∧
  (∀ b ∈ g.blocks, b.bid < g.nextBid) ∧
  (∀ b ∈ g.blocks, ∀ s ∈ b.term.succs, s < g.nextBid) ∧
  (∀ b ∈ g.blocks, ∀ p ∈ b.phis, ∀ e ∈ p.incoming, e.1 < g.nextBid)

def rekeyEntry (old new : Nat) (e : Nat × Nat) : Nat × Nat :=
  if e.1 = old then (new, e.2) else e

def splitMapFn (srcBid nd ud nbid : Nat) (b : BB) : BB :=
  let b1 := if b.bid == srcBid then { b with term := Term.invokeT nbid ud } else b
  if b1.bid == nd then
    { b1 with phis := b1.phis.map (fun p => ⟨rekeyAll srcBid nbid p.incoming⟩) }
  else b1

def funcWF (f : Func) : Prop :=
  f.instrs.Pairwise (fun a b => a.id ≠ b.id) ∧ ∀ i ∈ f.instrs, i.id < f.nextId

def vrefBound (n : Nat) : VRef → Bool
  | .ref r => decide (r < n)
  | .constV _ => true

/-- The vtable-name observation of an operand: it is named and its name
starts with "vtable" (first disjunct of `isVtableGep`). -/
def vtObs (f : Func) (v : VRef) : Bool :=
  !(refName f v).isEmpty && strStartsWith (refName f v) ("vtable".data)

/-- The vtable-global observation of an operand: it is a `GlobalVariable`
whose name starts with "_ZTV" (third disjunct of `isVtableGep`). -/
def ztvObs (f : Func) (v : VRef) : Bool :=
  refIsGlobalVar f v && strStartsWith (refName f v) ("_ZTV".data)

/-- Well-formed SSA id tables: instruction ids are pairwise distinct and
below the fresh-id counter, every operand reference is below the counter,
and module-level value ids are below the counter and disjoint from
instruction ids. -/
def stateWF (F : Func) : Prop :=
  F.instrs.Pairwise (fun a b => a.id ≠ b.id) ∧
  (∀ i ∈ F.instrs, i.id < F.nextId) ∧
  (∀ i ∈ F.instrs, ∀ r : Nat, VRef.ref r ∈ i.ops → r < F.nextId) ∧
  (∀ v ∈ F.extVals, v.id < F.nextId) ∧
  (∀ v ∈ F.extVals, ∀ i ∈ F.instrs, v.id ≠ i.id)

/-- The per-candidate redirection map applied inside `rewriteGep`: a
snapshotted consumer of the candidate has its references to it replaced by
the new pointer; any other instruction is untouched. -/
def redirectUses (F : Func) (gid nid : Nat) (u : Instr) : Instr :=
  if (F.instrs.filter (fun w => w.ops.contains (VRef.ref gid))).any
      (fun v => v.id == u.id) then
    { u with ops := u.ops.map (fun o =>
        if o == VRef.ref gid then VRef.ref nid else o) }
  else u

/-- Simulation invariant between the original function and any state
reached while processing candidates: the candidate scan yields the same
ids in the same order, every original candidate is still present with its
id, name and kind intact and with the skip-relevant observations of its
current base unchanged, the module-level values are untouched, and the id
tables stay well-formed. -/
def Tracked (f F : Func) : Prop :=
  ((collectGeps F).map (fun g => g.id) = (collectGeps f).map (fun g => g.id)) ∧
  (∀ g ∈ collectGeps f, ∃ gF, findInstr F g.id = some gF ∧
      gF.id = g.id ∧ gF.name = g.name ∧ gF.kind = g.kind ∧
      vtObs F (gepBase gF) = vtObs f (gepBase g) ∧
      ztvObs F (gepBase gF) = ztvObs f (gepBase g)) ∧
  F.extVals = f.extVals ∧
  f.nextId ≤ F.nextId ∧
  stateWF F

def exBase : ExtVal := ⟨0, "p".data, false⟩

def exGepData : GepData := ⟨[⟨some 1, 4, []⟩], false⟩

def exGep : Instr := ⟨1, "g".data, .gep exGepData, [.ref 0, .constV 1]⟩

def exUser : Instr := ⟨2, [], .other, [.ref 1]⟩

def exFunc : Func := ⟨[exGep, exUser], [exBase], 3⟩

def exDeadFunc : Func := ⟨[exGep], [exBase], 3⟩

def exZeroGep : Instr := ⟨1, [], .gep ⟨[⟨some 0, 4, []⟩], false⟩, [.ref 0, .constV 0]⟩

def exZeroFunc : Func := ⟨[exZeroGep], [exBase], 2⟩

def exVtBase : ExtVal := ⟨0, "vtable.f".data, false⟩

def exVtGep : Instr := ⟨1, [], .gep ⟨[⟨some 1, 8, []⟩], false⟩, [.ref 0, .constV 1]⟩

def exVtFunc : Func := ⟨[exVtGep], [exVtBase], 2⟩

def exVbGep : Instr := ⟨1, [], .gep ⟨[⟨none, 1, "vbase.offset.x".data⟩], false⟩,
  [.ref 0, .ref 5]⟩

def exVbFunc : Func := ⟨[exVbGep], [exBase, ⟨5, "vbase.offset.x".data, false⟩], 6⟩

def exZtvBase : ExtVal := ⟨0, "_ZTV4Foo".data, true⟩

def exZtvGep : Instr := ⟨1, [], .gep ⟨[⟨some 2, 8, []⟩], false⟩, [.ref 0, .constV 2]⟩

def exZtvFunc : Func := ⟨[exZtvGep], [exZtvBase], 2⟩

def exVecGep : Instr := ⟨1, [], .gep ⟨[⟨some 1, 4, []⟩], true⟩, [.ref 0, .constV 1]⟩

def exVecFunc : Func := ⟨[exVecGep], [exBase], 2⟩

def exChainGep1 : Instr := ⟨1, "g1".data, .gep ⟨[⟨some 1, 4, []⟩], false⟩,
  [.ref 0, .constV 1]⟩

def exChainGep2 : Instr := ⟨2, "g2".data, .gep ⟨[⟨some 2, 8, []⟩], false⟩,
  [.ref 1, .constV 2]⟩

def exChainUser : Instr := ⟨3, [], .other, [.ref 2]⟩

def exChainFunc : Func := ⟨[exChainGep1, exChainGep2, exChainUser], [exBase], 4⟩

def exCFG : CFG := ⟨[⟨0, [], .invokeT 1 2⟩, ⟨1, [⟨[(0, 10), (3, 11)]⟩], .retT⟩,
  ⟨2, [], .retT⟩, ⟨3, [], .brT 1⟩], 4⟩

def exSrcBB : BB := ⟨0, [], .invokeT 1 2⟩

def exDstBB : BB := ⟨1, [⟨[(0, 10), (3, 11)]⟩], .retT⟩

def exCFG2 : CFG := ⟨[⟨0, [], .invokeT 1 2⟩, ⟨1, [⟨[(0, 10), (0, 12), (3, 11)]⟩], .retT⟩,
  ⟨2, [], .retT⟩, ⟨3, [], .brT 1⟩], 4⟩

def exSrcBB2 : BB := ⟨0, [], .invokeT 1 2⟩

def exDstBB2 : BB := ⟨1, [⟨[(0, 10), (0, 12), (3, 11)]⟩], .retT⟩

/-! ## Theorems -/

/-- Bit 48 of `p` read the way the emitted code does: `(p >> 48) & 1`. -/
theorem shr48_and_one (p : Nat) :
    (p >>> 48) &&& 1 = if p.testBit 48 then 1 else 0 := by
  rw [Nat.and_one_is_mod, Nat.shiftRight_eq_div_pow, Nat.testBit_to_div_mod]
  rcases Nat.mod_two_eq_zero_or_one (p / 2 ^ 48) with h | h <;>
    · simp only [h]
      norm_num

/-- Claim C1: for every 64-bit pointer value whose bit 48 is 0, the emitted
sequence (`ptrtoint`, `lshr` 48, `and` 1, negate, `shl` offset 49, `and`,
`add`, `inttoptr`) produces a value bit-identical to the original pointer,
regardless of the offset value. -/
theorem canonNewPtrInt_identity (p diff : Nat) (hp : p < W)
    (hbit : p.testBit 48 = false) : canonNewPtrInt p diff = p := by
  simp only [canonNewPtrInt]
  rw [shr48_and_one, hbit]
  simp [Nat.mod_eq_of_lt hp]

/-- Witness for C1 at the concrete pointer value 3 and offset 7. -/
theorem canonNewPtrInt_identity_witness :
    3 < W ∧ Nat.testBit 3 48 = false ∧ canonNewPtrInt 3 7 = 3 :=
  ⟨by decide, by decide, canonNewPtrInt_identity 3 7 (by decide) (by decide)⟩

/-- Claim C2: for every 64-bit pointer value whose bit 48 is 1 and every
statically known byte offset `diff`, the emitted sequence computes the
original integer value plus `diff <<< 49`, all arithmetic modulo `2^64`. -/
theorem canonNewPtrInt_offset_embedding (p diff : Nat) (hp : p < W)
    (hbit : p.testBit 48 = true) :
    canonNewPtrInt p diff = (p + (diff <<< 49)) % W := by
  simp only [canonNewPtrInt]
  rw [shr48_and_one, hbit]
  have hW : W - 1 < W := by unfold W; omega
  simp only [if_true]
  rw [Nat.mod_eq_of_lt hW]
  have hmask : ((diff <<< 49) % W) &&& (W - 1) = (diff <<< 49) % W := by
    show ((diff <<< 49) % W) &&& (2 ^ 64 - 1) = (diff <<< 49) % W
    rw [Nat.and_pow_two_sub_one_eq_mod]
    exact Nat.mod_mod_of_dvd _ dvd_rfl
  rw [hmask]
  conv_rhs => rw [Nat.add_mod]
  rw [Nat.mod_eq_of_lt hp]

/-- Witness for C2 at the concrete pointer value `2^48` and offset 1. -/
theorem canonNewPtrInt_offset_embedding_witness :
    2 ^ 48 < W ∧ Nat.testBit (2 ^ 48) 48 = true ∧
      canonNewPtrInt (2 ^ 48) 1 = (2 ^ 48 + (1 <<< 49)) % W :=
  ⟨by decide, by decide,
    canonNewPtrInt_offset_embedding (2 ^ 48) 1 (by decide) (by decide)⟩

/-- Claim C5: `shouldInstrument F` returns true if and only if the function
has a body (neither empty nor a declaration), is not
available-externally-only, does not carry the reserved runtime-support name
prefix, does not carry the skip-instrumentation marker, and carries the
explicit opt-in marker.  Being a plain function of `F`, it is pure and
deterministic. -/
theorem shouldInstrument_iff (F : FunctionDecl) :
    shouldInstrument F = true ↔
      (F.isEmptyFn = false ∧ F.isDeclaration = false ∧
        F.linkage ≠ .availableExternally ∧
        strStartsWith F.name ("__canonptr_".data) = false ∧
        F.hasDisableSanitizerInstrumentation = false ∧
        F.hasCanonPtrAttr = true) := by
  unfold shouldInstrument
  split_ifs <;> simp_all

theorem contains_eq_false_of_not_mem {α : Type} [BEq α] [LawfulBEq α]
    {l : List α} {x : α} (h : x ∉ l) : l.contains x = false := by
  rw [Bool.eq_false_iff]
  intro hc
  exact h (List.elem_iff.mp hc)

/-- Claim C6: for every scanned GEP that has all-zero indices, or is
vtable-like under any one of the three heuristics, or has a vector result
type, the rewrite is a no-op: the per-candidate step returns the function
state unchanged (so nothing is emitted for it and its consumers still
reference the original instruction) and reports no rewrite. -/
theorem skip_not_fail (f : Func) (g : Instr) (d : GepData)
    (hfind : findInstr f g.id = some g) (hkind : g.kind = .gep d)
    (hskip : hasAllZeroIndices d = true ∨ isVtableGep f g d = true ∨ d.isVector = true) :
    processGepId f g.id = (f, false) := by
  unfold processGepId
  rw [hfind]
  dsimp only
  unfold qualifies
  rw [hkind]
  dsimp only
  rcases hskip with h | h | h <;> split_ifs <;> simp_all

/-- Claim C9: a qualifying GEP with zero consumers at rewrite time is
still rewritten: the full tagging sequence is emitted right after it (the
nonempty emitted list is spliced into the instruction stream), while the
consumer-redirection step changes nothing else, leaving the synthesized
sequence dead in the function. -/
theorem dead_gep_rewritten (f : Func) (g : Instr) (d : GepData)
    (hfind : findInstr f g.id = some g) (hq : qualifies f g = some d)
    (hnou : ∀ u ∈ f.instrs, (VRef.ref g.id) ∉ u.ops) :
    processGepId f g.id =
      ({ f with instrs := insertAfter f.instrs g.id (emitSequence f g d).emitted,
                nextId := (emitSequence f g d).newPtrId + 1 }, true) ∧
    (emitSequence f g d).emitted ≠ [] := by
  constructor
  · unfold processGepId
    rw [hfind]
    dsimp only
    rw [hq]
    dsimp only
    unfold rewriteGep
    have husers : f.instrs.filter (fun u => u.ops.contains (VRef.ref g.id)) = [] := by
      rw [List.filter_eq_nil_iff]
      intro u hu
      simp only [Bool.not_eq_true]
      exact contains_eq_false_of_not_mem (hnou u hu)
    rw [husers]
    simp
  · simp only [emitSequence]
    simp

theorem all_const_accumulate (d : GepData)
    (hconst : ∀ i ∈ d.indices, i.constVal.isSome = true) :
    accumulateConstantOffset d =
      some (i64 ((d.indices.map (fun i => i.constVal.getD 0 * i.stride)).sum)) := by
  unfold accumulateConstantOffset
  rw [if_pos]
  exact List.all_eq_true.mpr hconst

/-- Claim C7: for a rewritten GEP whose every index is a compile-time
constant, the byte offset is folded into a single compile-time integer
constant (the scaled products are summed, including negative
displacements, into one 64-bit constant) with no offset instructions
emitted, and the synthesized sequence contains no multiply instruction and
no add instruction other than the single pointer add of the tagging
skeleton itself. -/
theorem constant_folding (f : Func) (g : Instr) (d : GepData)
    (hconst : ∀ i ∈ d.indices, i.constVal.isSome = true) :
    (synthOffset (f.nextId + 4) d (g.ops.drop 1) =
        ⟨.constV (i64 ((d.indices.map (fun i => i.constVal.getD 0 * i.stride)).sum)),
         [], f.nextId + 4⟩) ∧
    ((emitSequence f g d).emitted.countP (fun e => e.kind == IKind.mulI) = 0) ∧
    ((emitSequence f g d).emitted.countP (fun e => e.kind == IKind.addI) = 1) := by
  have hacc := all_const_accumulate d hconst
  have hsyn : ∀ nid idxOps, synthOffset nid d idxOps =
      ⟨.constV (i64 ((d.indices.map (fun i => i.constVal.getD 0 * i.stride)).sum)),
       [], nid⟩ := by
    intro nid idxOps
    unfold synthOffset
    rw [hacc]
  refine ⟨hsyn _ _, ?_, ?_⟩ <;>
    · simp only [emitSequence, hsyn, createShl]
      simp [List.countP_cons]

theorem map_rekey_setFirstKey (old new : Nat) (hne : new ≠ old) (l : List (Nat × Nat)) :
    (setFirstKey old new l).map (rekeyEntry old new) = l.map (rekeyEntry old new) := by
  induction l with
  | nil => rfl
  | cons e r ih =>
    by_cases h : e.1 = old
    · simp [setFirstKey, h, rekeyEntry, hne]
    · simp [setFirstKey, h, rekeyEntry, ih]

theorem countP_setFirstKey (old new : Nat) (hne : new ≠ old) :
    ∀ l : List (Nat × Nat), hasKey old l = true →
      (setFirstKey old new l).countP (fun e => e.1 == old) + 1
        = l.countP (fun e => e.1 == old) := by
  intro l
  induction l with
  | nil => simp [hasKey]
  | cons e r ih =>
    intro hk
    by_cases h : e.1 = old
    · simp [setFirstKey, h, List.countP_cons, hne]
    · have hk' : hasKey old r = true := by
        simpa [hasKey, h] using hk
      simp [setFirstKey, h, List.countP_cons, ih hk']

theorem map_rekey_of_no_key (old new : Nat) (l : List (Nat × Nat))
    (h : ∀ e ∈ l, e.1 ≠ old) : l.map (rekeyEntry old new) = l := by
  induction l with
  | nil => rfl
  | cons e r ih =>
    have he : e.1 ≠ old := h e (List.mem_cons_self e r)
    simp only [List.map_cons, rekeyEntry, if_neg he]
    rw [ih (fun x hx => h x (List.mem_cons_of_mem e hx))]

theorem rekeyFuel_eq_map (old new : Nat) (hne : new ≠ old) :
    ∀ fuel (l : List (Nat × Nat)), l.countP (fun e => e.1 == old) ≤ fuel →
      rekeyFuel old new fuel l = l.map (rekeyEntry old new) := by
  intro fuel
  induction fuel with
  | zero =>
    intro l hl
    have h0 : l.countP (fun e => e.1 == old) = 0 := Nat.le_zero.mp hl
    have hno : ∀ e ∈ l, e.1 ≠ old := by
      intro e he
      have := List.countP_eq_zero.mp h0 e he
      simpa using this
    rw [rekeyFuel, map_rekey_of_no_key old new l hno]
  | succ n ih =>
    intro l hl
    rw [rekeyFuel]
    by_cases hk : hasKey old l = true
    · rw [if_pos hk]
      have hc : (setFirstKey old new l).countP (fun e => e.1 == old) ≤ n := by
        have := countP_setFirstKey old new hne l hk
        omega
      rw [ih _ hc, map_rekey_setFirstKey old new hne l]
    · rw [if_neg hk]
      have hno : ∀ e ∈ l, e.1 ≠ old := by
        intro e he hE
        exact hk (by
          simp only [hasKey, List.any_eq_true]
          exact ⟨e, he, by simp [hE]⟩)
      exact (map_rekey_of_no_key old new l hno).symm

theorem rekeyAll_eq_map (old new : Nat) (hne : new ≠ old) (l : List (Nat × Nat)) :
    rekeyAll old new l = l.map (rekeyEntry old new) :=
  rekeyFuel_eq_map old new hne l.length l (List.countP_le_length _)

theorem find?_key_eq {α : Type} (key : α → Nat) (x : α) :
    ∀ l : List α, l.Pairwise (fun a b => key a ≠ key b) → x ∈ l →
      l.find? (fun b => key b == key x) = some x := by
  intro l
  induction l with
  | nil => simp
  | cons a r ih =>
    intro hp hm
    rcases List.mem_cons.mp hm with rfl | hr
    · simp [List.find?_cons]
    · have hne : key a ≠ key x := (List.pairwise_cons.mp hp).1 x hr
      have hb : (key a == key x) = false := by simp [hne]
      rw [List.find?_cons, hb]
      exact ih (List.pairwise_cons.mp hp).2 hr

theorem insertBlockBefore_decomp (nb : BB) (beforeBid : Nat) :
    ∀ blocks : List BB, ∃ l1 l2, blocks = l1 ++ l2 ∧
      insertBlockBefore blocks beforeBid nb = l1 ++ nb :: l2 := by
  intro blocks
  induction blocks with
  | nil => exact ⟨[], [], rfl, rfl⟩
  | cons b r ih =>
    by_cases h : (b.bid == beforeBid) = true
    · exact ⟨[], b :: r, rfl, by simp [insertBlockBefore, h]⟩
    · obtain ⟨l1, l2, he, hi⟩ := ih
      refine ⟨b :: l1, l2, by simp [he], ?_⟩
      simp only [insertBlockBefore, if_neg h, hi, List.cons_append]

theorem splitInvokeEdge_eq (g : CFG) (src : BB) (nd ud : Nat)
    (hwf : cfgWF g) (hsrc : src ∈ g.blocks) (hterm : src.term = .invokeT nd ud) :
    splitInvokeEdge g src.bid =
      some ⟨⟨(insertBlockBefore g.blocks nd ⟨g.nextBid, [], .brT nd⟩).map
          (splitMapFn src.bid nd ud g.nextBid), g.nextBid + 1⟩, g.nextBid⟩ := by
  unfold splitInvokeEdge
  rw [find?_key_eq BB.bid src g.blocks hwf.1 hsrc]
  dsimp only
  rw [hterm]
  dsimp only
  rw [List.map_map]
  rfl

theorem splitMapFn_bid (srcBid nd ud nbid : Nat) (b : BB) :
    (splitMapFn srcBid nd ud nbid b).bid = b.bid := by
  simp only [splitMapFn]
  split_ifs <;> rfl

theorem filter_eq_singleton_key {α : Type} (key : α → Nat) (p : α → Bool) (x : α) :
    ∀ L : List α, L.Pairwise (fun a b => key a ≠ key b) → x ∈ L → p x = true →
      (∀ b ∈ L, p b = true → key b = key x) → L.filter p = [x] := by
  intro L
  induction L with
  | nil => simp
  | cons a r ih =>
    intro hp hm hpx hkey
    rcases List.mem_cons.mp hm with rfl | hr
    · rw [List.filter_cons, if_pos hpx]
      have hnil : r.filter p = [] := by
        rw [List.filter_eq_nil_iff]
        intro b hb hpb
        exact absurd (hkey b (List.mem_cons_of_mem _ hb) hpb).symm
          ((List.pairwise_cons.mp hp).1 b hb)
      rw [hnil]
    · have hpa : p a = false := by
        rcases Bool.eq_false_or_eq_true (p a) with h | h
        · exact absurd (hkey a (List.mem_cons_self a r) h)
            ((List.pairwise_cons.mp hp).1 x hr)
        · exact h
      rw [List.filter_cons, if_neg (by simp [hpa])]
      exact ih (List.pairwise_cons.mp hp).2 hr hpx
        (fun b hb hpb => hkey b (List.mem_cons_of_mem _ hb) hpb)

/-- Claim C4: for an exceptional-call terminator with normal-path
successor `nd`, insertion-point resolution creates a new block `B` holding
nothing but a single unconditional jump to `nd`, redirects the normal edge
of the call to `B`, and rekeys every incoming PHI entry of the destination
that was keyed by the block of the call to `B` without changing the
incoming values; afterwards `B` has exactly one predecessor (the block of
the call) and one successor (`nd`).  The returned insertion point is the
jump of `B`, i.e. new instructions go inside `B` immediately before its
jump. -/
theorem invoke_edge_splitting (g : CFG) (src dst : BB) (nd ud : Nat)
    (hwf : cfgWF g) (hsrc : src ∈ g.blocks) (hterm : src.term = .invokeT nd ud)
    (hdst : dst ∈ g.blocks) (hdbid : dst.bid = nd) :
    ∃ r, splitInvokeEdge g src.bid = some r ∧
      r.newBid = g.nextBid ∧
      (∃ nb ∈ r.cfg.blocks, nb = ⟨r.newBid, [], .brT nd⟩) ∧
      preds r.cfg r.newBid = [src.bid] ∧
      succsOf r.cfg r.newBid = [nd] ∧
      (∃ src2 ∈ r.cfg.blocks, src2.bid = src.bid ∧ src2.term = .invokeT r.newBid ud) ∧
      (∃ dst2 ∈ r.cfg.blocks, dst2.bid = nd ∧
        dst2.phis = dst.phis.map
          (fun p => ⟨p.incoming.map (rekeyEntry src.bid r.newBid)⟩)) := by
  obtain ⟨hpair, hbidlt, hsucclt, hphilt⟩ := hwf
  have hsb : src.bid < g.nextBid := hbidlt src hsrc
  have hndlt : nd < g.nextBid := by
    apply hsucclt src hsrc
    rw [hterm]; simp [Term.succs]
  obtain ⟨l1, l2, hL, hins⟩ :=
    insertBlockBefore_decomp ⟨g.nextBid, [], .brT nd⟩ nd g.blocks
  have heq := splitInvokeEdge_eq g src nd ud ⟨hpair, hbidlt, hsucclt, hphilt⟩ hsrc hterm
  set φ := splitMapFn src.bid nd ud g.nextBid with hphi
  set nb : BB := ⟨g.nextBid, [], .brT nd⟩ with hnbdef
  -- facts about φ on the various blocks
  have hφnb : φ nb = nb := by
    have h1 : (g.nextBid == src.bid) = false := by simp; omega
    have h2 : (g.nextBid == nd) = false := by simp; omega
    rw [hphi]
    simp only [splitMapFn, hnbdef]
    simp [h1, h2]
  have hφsrc : (φ src).term = Term.invokeT g.nextBid ud ∧ (φ src).bid = src.bid := by
    rw [hphi]
    simp only [splitMapFn]
    split_ifs with h1 h2 <;> simp_all
  have hφ_term_of_ne : ∀ b : BB, b.bid ≠ src.bid → (φ b).term = b.term := by
    intro b hne
    have h1 : (b.bid == src.bid) = false := by simp [hne]
    rw [hphi]
    simp only [splitMapFn]
    simp only [h1]
    split_ifs <;> simp_all
  have hmemL : ∀ b ∈ g.blocks, b ∈ l1 ++ nb :: l2 := by
    intro b hb
    rw [hL] at hb
    rcases List.mem_append.mp hb with h | h
    · exact List.mem_append_left _ h
    · exact List.mem_append_right _ (List.mem_cons_of_mem _ h)
  have hLsub : ∀ b ∈ l1 ++ nb :: l2, b = nb ∨ b ∈ g.blocks := by
    intro b hb
    rcases List.mem_append.mp hb with h | h
    · exact Or.inr (by rw [hL]; exact List.mem_append_left _ h)
    · rcases List.mem_cons.mp h with h' | h'
      · exact Or.inl h'
      · exact Or.inr (by rw [hL]; exact List.mem_append_right _ h')
  have hpairL : (l1 ++ nb :: l2).Pairwise (fun a b => a.bid ≠ b.bid) := by
    rw [List.pairwise_middle (fun {a b} h => Ne.symm h), List.pairwise_cons]
    constructor
    · intro b hb
      have hbg : b ∈ g.blocks := by rw [hL]; exact hb
      have := hbidlt b hbg
      simp [hnbdef]; omega
    · rw [← hL]; exact hpair
  refine ⟨_, heq, rfl, ?_, ?_, ?_, ?_, ?_⟩ <;> dsimp only <;> rw [hins]
  · -- the new block is in the result, empty, ending in a jump to nd
    exact ⟨nb, List.mem_map.mpr
      ⟨nb, List.mem_append_right _ (List.mem_cons_self _ _), hφnb⟩, hnbdef⟩
  · -- preds of the new block = [src.bid]
    unfold preds
    dsimp only
    rw [List.filter_map]
    have hfilter : (l1 ++ nb :: l2).filter
        ((fun blk => blk.term.succs.contains g.nextBid) ∘ φ) = [src] := by
      apply filter_eq_singleton_key BB.bid _ src _ hpairL (hmemL src hsrc)
      · simp only [Function.comp_apply, hφsrc.1, Term.succs]
        simp
      · intro b hb hpb
        by_contra hne
        rcases hLsub b hb with rfl | hbg
        · rw [Function.comp_apply, hφnb] at hpb
          simp [hnbdef, Term.succs] at hpb
          omega
        · rw [Function.comp_apply, hφ_term_of_ne b ?_] at hpb
          · have hmem := List.elem_iff.mp hpb
            have := hsucclt b hbg g.nextBid hmem
            omega
          · intro hbs
            exact hne (by rw [hbs])
    rw [hfilter]
    simp [splitMapFn_bid, hφsrc.2]
  · -- succs of the new block = [nd]
    unfold succsOf
    dsimp only
    rw [List.find?_map, List.find?_append]
    have h1 : l1.find? ((fun blk => blk.bid == g.nextBid) ∘ φ) = none := by
      rw [List.find?_eq_none]
      intro x hx
      have hxg : x ∈ g.blocks := by rw [hL]; exact List.mem_append_left _ hx
      have := hbidlt x hxg
      simp [hphi, splitMapFn_bid]
      omega
    rw [h1, Option.none_or, List.find?_cons]
    have h2 : ((fun blk => blk.bid == g.nextBid) ∘ φ) nb = true := by
      simp [hφnb, hnbdef]
    rw [h2]
    dsimp only [Option.map_some']
    rw [hφnb]
    rfl
  · -- the invoke's normal edge now points at the new block
    exact ⟨φ src, List.mem_map_of_mem φ (hmemL src hsrc), hφsrc.2, hφsrc.1⟩
  · -- the destination's PHIs are rekeyed entrywise
    have hne2 : g.nextBid ≠ src.bid := by omega
    have hrk : (fun p : Phi => (⟨rekeyAll src.bid g.nextBid p.incoming⟩ : Phi))
        = (fun p : Phi => ⟨p.incoming.map (rekeyEntry src.bid g.nextBid)⟩) := by
      funext p
      rw [rekeyAll_eq_map src.bid g.nextBid hne2]
    have hφdst : (φ dst).bid = nd ∧ (φ dst).phis
        = dst.phis.map (fun p => ⟨p.incoming.map (rekeyEntry src.bid g.nextBid)⟩) := by
      rw [hphi]
      constructor
      · rw [splitMapFn_bid]; exact hdbid
      · simp only [splitMapFn, hrk]
        split_ifs with h1 h2 h3 <;> first | rfl | (exfalso; simp_all)
    exact ⟨φ dst, List.mem_map_of_mem φ (hmemL dst hdst), hφdst.1, hφdst.2⟩

/-- Claim C10: during exceptional-call edge-splitting, if a PHI node in
the normal destination has multiple incoming entries keyed by the original
block of the call, every one of those entries (not just the first) is
rekeyed to the new block: after resolution no PHI in the leading PHI group
of the destination retains any entry keyed by the original block, and for
each PHI the number of entries now keyed by the new block equals the
number previously keyed by the original block. -/
theorem invoke_split_rekeys_every (g : CFG) (src dst : BB) (nd ud : Nat)
    (hwf : cfgWF g) (hsrc : src ∈ g.blocks) (hterm : src.term = .invokeT nd ud)
    (hdst : dst ∈ g.blocks) (hdbid : dst.bid = nd) :
    ∃ r, splitInvokeEdge g src.bid = some r ∧
      (∀ t ∈ r.cfg.blocks, t.bid = nd → ∀ p ∈ t.phis, ∀ e ∈ p.incoming, e.1 ≠ src.bid) ∧
      (∃ dst2 ∈ r.cfg.blocks, dst2.bid = nd ∧
        dst2.phis.length = dst.phis.length ∧
        ∀ k (hk1 : k < dst.phis.length) (hk2 : k < dst2.phis.length),
          (dst2.phis.get ⟨k, hk2⟩).incoming.countP (fun e => e.1 == r.newBid)
            = (dst.phis.get ⟨k, hk1⟩).incoming.countP (fun e => e.1 == src.bid)) := by
  obtain ⟨hpair, hbidlt, hsucclt, hphilt⟩ := hwf
  have hsb : src.bid < g.nextBid := hbidlt src hsrc
  have hndlt : nd < g.nextBid := by
    apply hsucclt src hsrc
    rw [hterm]; simp [Term.succs]
  have hne2 : g.nextBid ≠ src.bid := by omega
  obtain ⟨l1, l2, hL, hins⟩ :=
    insertBlockBefore_decomp ⟨g.nextBid, [], .brT nd⟩ nd g.blocks
  have heq := splitInvokeEdge_eq g src nd ud ⟨hpair, hbidlt, hsucclt, hphilt⟩ hsrc hterm
  set φ := splitMapFn src.bid nd ud g.nextBid with hphi
  set nb : BB := ⟨g.nextBid, [], .brT nd⟩ with hnbdef
  have hrk : (fun p : Phi => (⟨rekeyAll src.bid g.nextBid p.incoming⟩ : Phi))
      = (fun p : Phi => ⟨p.incoming.map (rekeyEntry src.bid g.nextBid)⟩) := by
    funext p
    rw [rekeyAll_eq_map src.bid g.nextBid hne2]
  have hφ_phis_of_nd : ∀ b : BB, b.bid = nd → (φ b).phis
      = b.phis.map (fun p => ⟨p.incoming.map (rekeyEntry src.bid g.nextBid)⟩) := by
    intro b hb
    rw [hphi]
    simp only [splitMapFn, hrk]
    split_ifs with h1 h2 h3 <;> first | rfl | (exfalso; simp_all)
  have hφbid : ∀ b : BB, (φ b).bid = b.bid := fun b => splitMapFn_bid _ _ _ _ b
  have hLsub : ∀ b ∈ l1 ++ nb :: l2, b = nb ∨ b ∈ g.blocks := by
    intro b hb
    rcases List.mem_append.mp hb with h | h
    · exact Or.inr (by rw [hL]; exact List.mem_append_left _ h)
    · rcases List.mem_cons.mp h with h' | h'
      · exact Or.inl h'
      · exact Or.inr (by rw [hL]; exact List.mem_append_right _ h')
  have hmemL : ∀ b ∈ g.blocks, b ∈ l1 ++ nb :: l2 := by
    intro b hb
    rw [hL] at hb
    rcases List.mem_append.mp hb with h | h
    · exact List.mem_append_left _ h
    · exact List.mem_append_right _ (List.mem_cons_of_mem _ h)
  refine ⟨_, heq, ?_, ?_⟩ <;> dsimp only <;> rw [hins]
  · -- no PHI of the normal destination keeps an entry keyed by the invoke's block
    intro t ht htbid p hp e he
    obtain ⟨b, hbL, hbt⟩ := List.mem_map.mp ht
    rcases hLsub b hbL with rfl | hbg
    · rw [← hbt, hφbid] at htbid
      rw [hnbdef] at htbid
      exact absurd htbid (by simp; omega)
    · have hbbid : b.bid = nd := by rw [← hbt, hφbid] at htbid; exact htbid
      rw [← hbt, hφ_phis_of_nd b hbbid] at hp
      obtain ⟨p0, hp0, hpp⟩ := List.mem_map.mp hp
      rw [← hpp] at he
      dsimp only at he
      obtain ⟨e0, he0, hee⟩ := List.mem_map.mp he
      rw [← hee]
      unfold rekeyEntry
      split_ifs with hc
      · dsimp only
        omega
      · exact hc
  · -- the destination block, with per-PHI entry counts preserved
    refine ⟨φ dst, List.mem_map_of_mem φ (hmemL dst hdst), by rw [hφbid]; exact hdbid, ?_, ?_⟩
    · rw [hφ_phis_of_nd dst hdbid, List.length_map]
    · intro k hk1 hk2
      have hget : (φ dst).phis.get ⟨k, hk2⟩
          = ⟨(dst.phis.get ⟨k, hk1⟩).incoming.map (rekeyEntry src.bid g.nextBid)⟩ := by
        have := hφ_phis_of_nd dst hdbid
        rw [List.get_of_eq this, List.get_map]
      rw [hget]
      dsimp only
      rw [List.countP_map]
      apply List.countP_congr
      intro e he
      have helt : e.1 < g.nextBid :=
        hphilt dst hdst _ (List.get_mem dst.phis k hk1) e he
      simp only [Function.comp_apply, rekeyEntry]
      split_ifs with hc
      · simp [hc]
      · simp [hc]
        omega

theorem emitGEPOffsetAux_nid_le (l : List (Index × VRef)) :
    ∀ (nid : Nat) (running : Option Nat), nid ≤ (emitGEPOffsetAux nid l running).nid := by
  induction l with
  | nil => intro nid running; simp [emitGEPOffsetAux]
  | cons iv rest ih =>
    intro nid running
    obtain ⟨i, v⟩ := iv
    simp only [emitGEPOffsetAux]
    cases hc : i.constVal with
    | some c => exact ih nid running
    | none =>
      cases running with
      | none => exact Nat.le_trans (by omega) (ih (nid + 1) (some nid))
      | some rid => exact Nat.le_trans (by omega) (ih (nid + 2) (some (nid + 1)))

theorem emitGEPOffsetAux_emitted_le (l : List (Index × VRef)) :
    ∀ (nid : Nat) (running : Option Nat),
      ∀ e ∈ (emitGEPOffsetAux nid l running).emitted, nid ≤ e.id := by
  induction l with
  | nil => intro nid running e he; simp [emitGEPOffsetAux] at he
  | cons iv rest ih =>
    intro nid running e he
    obtain ⟨i, v⟩ := iv
    simp only [emitGEPOffsetAux] at he
    cases hc : i.constVal with
    | some c =>
      rw [hc] at he
      exact ih nid running e he
    | none =>
      rw [hc] at he
      cases running with
      | none =>
        dsimp only at he
        rcases List.mem_cons.mp he with rfl | he'
        · exact Nat.le_refl _
        · exact Nat.le_trans (by omega) (ih (nid + 1) (some nid) e he')
      | some rid =>
        dsimp only at he
        rcases List.mem_cons.mp he with rfl | he'
        · exact Nat.le_refl _
        · rcases List.mem_cons.mp he' with rfl | he''
          · exact Nat.le_succ nid
          · exact Nat.le_trans (by omega) (ih (nid + 2) (some (nid + 1)) e he'')

theorem emitGEPOffset_nid_le (nid : Nat) (l : List (Index × VRef)) :
    nid ≤ (emitGEPOffset nid l).nid := by
  have h1 := emitGEPOffsetAux_nid_le l nid none
  unfold emitGEPOffset
  dsimp only
  cases hr : (emitGEPOffsetAux nid l none).running with
  | none => dsimp only; omega
  | some rid => split_ifs <;> dsimp only <;> omega

theorem emitGEPOffset_emitted_le (nid : Nat) (l : List (Index × VRef)) :
    ∀ e ∈ (emitGEPOffset nid l).emitted, nid ≤ e.id := by
  have h1 := emitGEPOffsetAux_emitted_le l nid none
  have h2 := emitGEPOffsetAux_nid_le l nid none
  unfold emitGEPOffset
  dsimp only
  cases hr : (emitGEPOffsetAux nid l none).running with
  | none =>
    intro e he
    dsimp only at he
    exact h1 e he
  | some rid =>
    intro e he
    split_ifs at he <;> dsimp only at he
    · exact h1 e he
    · rcases List.mem_append.mp he with h | h
      · exact h1 e h
      · rcases List.mem_cons.mp h with rfl | h'
        · exact h2
        · simp at h'

theorem synthOffset_nid_le (nid : Nat) (d : GepData) (idxOps : List VRef) :
    nid ≤ (synthOffset nid d idxOps).nid := by
  unfold synthOffset
  cases accumulateConstantOffset d with
  | none => exact emitGEPOffset_nid_le nid _
  | some c => simp

theorem synthOffset_emitted_le (nid : Nat) (d : GepData) (idxOps : List VRef) :
    ∀ e ∈ (synthOffset nid d idxOps).emitted, nid ≤ e.id := by
  unfold synthOffset
  cases accumulateConstantOffset d with
  | none => exact emitGEPOffset_emitted_le nid _
  | some c => simp

theorem createShl_nid_le (v : VRef) (amt nid : Nat) (nm : Str) :
    nid ≤ (createShl v amt nid nm).nid := by
  cases v <;> simp [createShl]

theorem createShl_emitted_le (v : VRef) (amt nid : Nat) (nm : Str) :
    ∀ e ∈ (createShl v amt nid nm).emitted, nid ≤ e.id := by
  cases v <;> simp [createShl]

theorem emitSequence_emitted_le (f : Func) (g : Instr) (d : GepData) :
    ∀ e ∈ (emitSequence f g d).emitted, f.nextId ≤ e.id := by
  intro e he
  simp only [emitSequence] at he
  have hso := synthOffset_nid_le (f.nextId + 4) d (g.ops.drop 1)
  rcases List.mem_append.mp he with h | h
  · rcases List.mem_append.mp h with h' | h'
    · rcases List.mem_append.mp h' with h'' | h''
      · simp only [List.mem_cons] at h''
        rcases h'' with rfl | rfl | rfl | rfl | hfalse
        · dsimp only; omega
        · dsimp only; omega
        · dsimp only; omega
        · dsimp only; omega
        · simp at hfalse
      · have := synthOffset_emitted_le (f.nextId + 4) d (g.ops.drop 1) e h''
        omega
    · have := createShl_emitted_le _ 49 _ _ e h'
      omega
  · simp only [List.mem_cons] at h
    rcases h with rfl | rfl | rfl | hfalse
    · dsimp only
      exact Nat.le_trans (by omega) (createShl_nid_le _ _ _ _)
    · dsimp only
      exact Nat.le_trans (Nat.le_trans (by omega) (createShl_nid_le _ _ _ _))
        (Nat.le_succ _)
    · dsimp only
      exact Nat.le_trans (Nat.le_trans (by omega) (createShl_nid_le _ _ _ _))
        (Nat.le_add_right _ 2)
    · simp at hfalse

theorem emitSequence_newPtrId_ge (f : Func) (g : Instr) (d : GepData) :
    f.nextId ≤ (emitSequence f g d).newPtrId := by
  have hso := synthOffset_nid_le (f.nextId + 4) d (g.ops.drop 1)
  simp only [emitSequence]
  exact Nat.le_trans (Nat.le_trans (by omega) (createShl_nid_le _ _ _ _))
    (Nat.le_add_right _ 2)

theorem emitSequence_head (f : Func) (g : Instr) (d : GepData) :
    ∃ tl, (emitSequence f g d).emitted
      = (⟨f.nextId, (if g.name.isEmpty then ([] : Str) else g.name ++ ".".data)
          ++ "int".data, .ptrtoint, [.ref g.id]⟩ : Instr) :: tl := by
  simp only [emitSequence]
  exact ⟨_, rfl⟩

theorem insertAfter_find?_old (gid uid : Nat) (em : List Instr)
    (hfresh : ∀ e ∈ em, e.id ≠ uid) :
    ∀ l : List Instr,
      (insertAfter l gid em).find? (fun x => x.id == uid)
        = l.find? (fun x => x.id == uid) := by
  intro l
  induction l with
  | nil => rfl
  | cons x r ih =>
    simp only [insertAfter]
    by_cases h : (x.id == gid) = true
    · rw [if_pos h, List.find?_cons, List.find?_cons]
      cases hx : (x.id == uid) with
      | true => rfl
      | false =>
        dsimp only
        rw [List.find?_append]
        have hnone : em.find? (fun x => x.id == uid) = none := by
          rw [List.find?_eq_none]
          intro e he
          simp [hfresh e he]
        rw [hnone, Option.none_or]
    · rw [if_neg h, List.find?_cons, List.find?_cons]
      cases hx : (x.id == uid) with
      | true => rfl
      | false => exact ih

theorem find?_map_idpres (ρ : Instr → Instr) (hid : ∀ x, (ρ x).id = x.id) (uid : Nat)
    (l : List Instr) :
    (l.map ρ).find? (fun x => x.id == uid) = (l.find? (fun x => x.id == uid)).map ρ := by
  rw [List.find?_map]
  have hpred : ((fun x : Instr => x.id == uid) ∘ ρ) = (fun x : Instr => x.id == uid) := by
    funext x
    simp [hid]
  rw [hpred]

theorem insertAfter_find?_fresh (gid nid : Nat) (em : List Instr) (e : Instr)
    (hfind : em.find? (fun x => x.id == nid) = some e) :
    ∀ l : List Instr, (∀ x ∈ l, x.id ≠ nid) → (∃ x ∈ l, x.id = gid) →
      (insertAfter l gid em).find? (fun x => x.id == nid) = some e := by
  intro l
  induction l with
  | nil => simp
  | cons x r ih =>
    intro hfresh hex
    simp only [insertAfter]
    have hx : (x.id == nid) = false := by
      simp [hfresh x (List.mem_cons_self x r)]
    by_cases h : (x.id == gid) = true
    · rw [if_pos h, List.find?_cons, hx]
      dsimp only
      rw [List.find?_append, hfind]
      rfl
    · rw [if_neg h, List.find?_cons, hx]
      dsimp only
      apply ih (fun y hy => hfresh y (List.mem_cons_of_mem x hy))
      obtain ⟨y, hy, hyid⟩ := hex
      rcases List.mem_cons.mp hy with rfl | hy'
      · exact absurd (by simp [hyid]) h
      · exact ⟨y, hy', hyid⟩

theorem mem_id_unique (l : List Instr) (hp : l.Pairwise (fun a b => a.id ≠ b.id))
    {a b : Instr} (ha : a ∈ l) (hb : b ∈ l) (hid : a.id = b.id) : a = b := by
  by_contra hne
  exact (hp.forall (fun {x y} h => Ne.symm h)) ha hb hne hid

/-- Claim C8: the consumers of a rewritten instruction are snapshotted
before any new instruction is emitted; after the rewrite exactly those
snapshotted consumers reference the new pointer instead of the original
instruction, every other old instruction is unchanged, the synthesized
pointer-to-integer reinterpretation (which itself consumes the original
instruction) is not retargeted and still references the original, and the
original instruction is not deleted. -/
theorem consumer_snapshot_framing (f : Func) (g : Instr) (d : GepData)
    (hwf : funcWF f) (hmem : g ∈ f.instrs)
    (hself : (VRef.ref g.id) ∉ g.ops) :
    (∀ u ∈ f.instrs, (VRef.ref g.id) ∈ u.ops →
        findInstr (rewriteGep f g d) u.id = some { u with ops := u.ops.map (fun o =>
          if o == VRef.ref g.id then VRef.ref (emitSequence f g d).newPtrId else o) }) ∧
    (∀ u ∈ f.instrs, (VRef.ref g.id) ∉ u.ops →
        findInstr (rewriteGep f g d) u.id = some u) ∧
    findInstr (rewriteGep f g d) f.nextId =
      some ⟨f.nextId, (if g.name.isEmpty then ([] : Str) else g.name ++ ".".data)
        ++ "int".data, .ptrtoint, [.ref g.id]⟩ ∧
    findInstr (rewriteGep f g d) g.id = some g := by
  obtain ⟨hpair, hlt⟩ := hwf
  have hrew : (rewriteGep f g d).instrs
      = (insertAfter f.instrs g.id (emitSequence f g d).emitted).map
          (fun u =>
            if (f.instrs.filter (fun u => u.ops.contains (VRef.ref g.id))).any
                (fun v => v.id == u.id) then
              { u with ops := u.ops.map (fun o =>
                  if o == VRef.ref g.id then VRef.ref (emitSequence f g d).newPtrId
                  else o) }
            else u) := rfl
  set sq := emitSequence f g d with hsq
  set users := f.instrs.filter (fun u => u.ops.contains (VRef.ref g.id)) with husersdef
  set ρ : Instr → Instr := fun u =>
    if users.any (fun v => v.id == u.id) then
      { u with ops := u.ops.map (fun o =>
          if o == VRef.ref g.id then VRef.ref sq.newPtrId else o) }
    else u with hρ
  have hid : ∀ x, (ρ x).id = x.id := by
    intro x
    rw [hρ]
    dsimp only
    split_ifs <;> rfl
  have husub : ∀ v ∈ users, v ∈ f.instrs := by
    intro v hv
    rw [husersdef] at hv
    exact List.mem_of_mem_filter hv
  have hany_true : ∀ u ∈ f.instrs, (VRef.ref g.id) ∈ u.ops →
      users.any (fun v => v.id == u.id) = true := by
    intro u hu href
    rw [List.any_eq_true]
    refine ⟨u, ?_, by simp⟩
    rw [husersdef]
    rw [List.mem_filter]
    exact ⟨hu, List.elem_iff.mpr href⟩
  have hany_false : ∀ u ∈ f.instrs, (VRef.ref g.id) ∉ u.ops →
      users.any (fun v => v.id == u.id) = false := by
    intro u hu href
    rw [Bool.eq_false_iff]
    intro hc
    obtain ⟨v, hv, hvid⟩ := List.any_eq_true.mp hc
    have hveq : v = u := mem_id_unique f.instrs hpair (husub v hv) hu (by simpa using hvid)
    rw [husersdef, List.mem_filter] at hv
    rw [hveq] at hv
    exact href (List.elem_iff.mp hv.2)
  have hany_fresh : ∀ n : Nat, f.nextId ≤ n →
      users.any (fun v => v.id == n) = false := by
    intro n hn
    rw [Bool.eq_false_iff]
    intro hc
    obtain ⟨v, hv, hvid⟩ := List.any_eq_true.mp hc
    have := hlt v (husub v hv)
    have : v.id = n := by simpa using hvid
    omega
  have hfresh_old : ∀ uid : Nat, uid < f.nextId → ∀ e ∈ sq.emitted, e.id ≠ uid := by
    intro uid hu e he
    have := emitSequence_emitted_le f g d e he
    omega
  have hfind_old : ∀ u ∈ f.instrs, findInstr (rewriteGep f g d) u.id = some (ρ u) := by
    intro u hu
    unfold findInstr
    rw [hrew]
    rw [find?_map_idpres ρ hid]
    rw [insertAfter_find?_old g.id u.id sq.emitted (hfresh_old u.id (hlt u hu))]
    rw [find?_key_eq Instr.id u f.instrs hpair hu]
    rfl
  have h2 : ∀ u ∈ f.instrs, (VRef.ref g.id) ∉ u.ops →
      findInstr (rewriteGep f g d) u.id = some u := by
    intro u hu href
    rw [hfind_old u hu, hρ]
    dsimp only
    rw [hany_false u hu href]
    simp
  refine ⟨?_, h2, ?_, h2 g hmem hself⟩
  · intro u hu href
    rw [hfind_old u hu, hρ]
    dsimp only
    rw [hany_true u hu href]
    simp
  · obtain ⟨tl, htl⟩ := emitSequence_head f g d
    unfold findInstr
    rw [hrew, find?_map_idpres ρ hid]
    have hfindem : sq.emitted.find? (fun x => x.id == f.nextId)
        = some ⟨f.nextId, (if g.name.isEmpty then ([] : Str) else g.name ++ ".".data)
            ++ "int".data, .ptrtoint, [.ref g.id]⟩ := by
      rw [hsq, htl, List.find?_cons]
      simp
    rw [insertAfter_find?_fresh g.id f.nextId sq.emitted _ hfindem f.instrs
      (fun x hx => by have := hlt x hx; omega) ⟨g, hmem, rfl⟩]
    dsimp only [Option.map_some']
    rw [hρ]
    dsimp only
    rw [hany_fresh f.nextId (Nat.le_refl _)]
    simp

theorem emitGEPOffsetAux_emitted_lt (l : List (Index × VRef)) :
    ∀ (nid : Nat) (running : Option Nat),
      ∀ e ∈ (emitGEPOffsetAux nid l running).emitted,
        e.id < (emitGEPOffsetAux nid l running).nid := by
  induction l with
  | nil => intro nid running e he; simp [emitGEPOffsetAux] at he
  | cons iv rest ih =>
    intro nid running e he
    obtain ⟨i, v⟩ := iv
    cases hc : i.constVal with
    | some c =>
      simp only [emitGEPOffsetAux, hc] at he ⊢
      exact ih nid running e he
    | none =>
      cases running with
      | none =>
        simp only [emitGEPOffsetAux, hc] at he ⊢
        rcases List.mem_cons.mp he with rfl | he'
        · exact Nat.lt_of_lt_of_le (Nat.lt_succ_self nid)
            (emitGEPOffsetAux_nid_le rest (nid + 1) (some nid))
        · exact ih (nid + 1) (some nid) e he'
      | some rid =>
        simp only [emitGEPOffsetAux, hc] at he ⊢
        rcases List.mem_cons.mp he with rfl | he'
        · exact Nat.lt_of_lt_of_le (by dsimp only; omega)
            (emitGEPOffsetAux_nid_le rest (nid + 2) (some (nid + 1)))
        · rcases List.mem_cons.mp he' with rfl | he''
          · exact Nat.lt_of_lt_of_le (by dsimp only; omega)
              (emitGEPOffsetAux_nid_le rest (nid + 2) (some (nid + 1)))
          · exact ih (nid + 2) (some (nid + 1)) e he''

theorem emitGEPOffsetAux_emitted_pairwise (l : List (Index × VRef)) :
    ∀ (nid : Nat) (running : Option Nat),
      (emitGEPOffsetAux nid l running).emitted.Pairwise (fun a b => a.id < b.id) := by
  induction l with
  | nil => intro nid running; simp [emitGEPOffsetAux]
  | cons iv rest ih =>
    intro nid running
    obtain ⟨i, v⟩ := iv
    cases hc : i.constVal with
    | some c =>
      simp only [emitGEPOffsetAux, hc]
      exact ih nid running
    | none =>
      cases running with
      | none =>
        simp only [emitGEPOffsetAux, hc]
        rw [List.pairwise_cons]
        refine ⟨?_, ih (nid + 1) (some nid)⟩
        intro e he
        have := emitGEPOffsetAux_emitted_le rest (nid + 1) (some nid) e he
        dsimp only
        omega
      | some rid =>
        simp only [emitGEPOffsetAux, hc]
        rw [List.pairwise_cons]
        constructor
        · intro e he
          rcases List.mem_cons.mp he with rfl | he'
          · dsimp only; omega
          · have := emitGEPOffsetAux_emitted_le rest (nid + 2) (some (nid + 1)) e he'
            dsimp only
            omega
        · rw [List.pairwise_cons]
          refine ⟨?_, ih (nid + 2) (some (nid + 1))⟩
          intro e he
          have := emitGEPOffsetAux_emitted_le rest (nid + 2) (some (nid + 1)) e he
          dsimp only
          omega

theorem emitGEPOffset_emitted_lt (nid : Nat) (l : List (Index × VRef)) :
    ∀ e ∈ (emitGEPOffset nid l).emitted, e.id < (emitGEPOffset nid l).nid := by
  have h1 := emitGEPOffsetAux_emitted_lt l nid none
  unfold emitGEPOffset
  dsimp only
  cases hr : (emitGEPOffsetAux nid l none).running with
  | none =>
    intro e he
    dsimp only at he ⊢
    exact h1 e he
  | some rid =>
    intro e he
    split_ifs at he ⊢ <;> dsimp only at he ⊢
    · exact h1 e he
    · rcases List.mem_append.mp he with h | h
      · exact Nat.lt_succ_of_lt (h1 e h)
      · rcases List.mem_cons.mp h with rfl | h'
        · exact Nat.lt_succ_self _
        · simp at h'

theorem emitGEPOffset_emitted_pairwise (nid : Nat) (l : List (Index × VRef)) :
    (emitGEPOffset nid l).emitted.Pairwise (fun a b => a.id < b.id) := by
  have h1 := emitGEPOffsetAux_emitted_pairwise l nid none
  have h2 := emitGEPOffsetAux_emitted_lt l nid none
  unfold emitGEPOffset
  dsimp only
  cases hr : (emitGEPOffsetAux nid l none).running with
  | none => exact h1
  | some rid =>
    split_ifs
    · exact h1
    · dsimp only
      rw [List.pairwise_append]
      refine ⟨h1, List.pairwise_singleton _ _, ?_⟩
      intro a ha b hb
      rcases List.mem_singleton.mp hb with rfl
      dsimp only
      exact h2 a ha

theorem synthOffset_emitted_lt (nid : Nat) (d : GepData) (idxOps : List VRef) :
    ∀ e ∈ (synthOffset nid d idxOps).emitted, e.id < (synthOffset nid d idxOps).nid := by
  unfold synthOffset
  cases accumulateConstantOffset d with
  | none => exact emitGEPOffset_emitted_lt nid _
  | some c => simp

theorem synthOffset_emitted_pairwise (nid : Nat) (d : GepData) (idxOps : List VRef) :
    (synthOffset nid d idxOps).emitted.Pairwise (fun a b => a.id < b.id) := by
  unfold synthOffset
  cases accumulateConstantOffset d with
  | none => exact emitGEPOffset_emitted_pairwise nid _
  | some c => simp

theorem createShl_emitted_lt (v : VRef) (amt nid : Nat) (nm : Str) :
    ∀ e ∈ (createShl v amt nid nm).emitted, e.id < (createShl v amt nid nm).nid := by
  cases v <;> simp [createShl]

theorem createShl_emitted_pairwise (v : VRef) (amt nid : Nat) (nm : Str) :
    (createShl v amt nid nm).emitted.Pairwise (fun a b => a.id < b.id) := by
  cases v <;> simp [createShl]

theorem emitGEPOffsetAux_no_gep (l : List (Index × VRef)) :
    ∀ (nid : Nat) (running : Option Nat),
      ∀ e ∈ (emitGEPOffsetAux nid l running).emitted, isGepKind e.kind = false := by
  induction l with
  | nil => intro nid running e he; simp [emitGEPOffsetAux] at he
  | cons iv rest ih =>
    intro nid running e he
    obtain ⟨i, v⟩ := iv
    cases hc : i.constVal with
    | some c =>
      simp only [emitGEPOffsetAux, hc] at he
      exact ih nid running e he
    | none =>
      cases running with
      | none =>
        simp only [emitGEPOffsetAux, hc] at he
        rcases List.mem_cons.mp he with rfl | he'
        · rfl
        · exact ih (nid + 1) (some nid) e he'
      | some rid =>
        simp only [emitGEPOffsetAux, hc] at he
        rcases List.mem_cons.mp he with rfl | he'
        · rfl
        · rcases List.mem_cons.mp he' with rfl | he''
          · rfl
          · exact ih (nid + 2) (some (nid + 1)) e he''

theorem emitGEPOffset_no_gep (nid : Nat) (l : List (Index × VRef)) :
    ∀ e ∈ (emitGEPOffset nid l).emitted, isGepKind e.kind = false := by
  have h1 := emitGEPOffsetAux_no_gep l nid none
  unfold emitGEPOffset
  dsimp only
  cases hr : (emitGEPOffsetAux nid l none).running with
  | none =>
    intro e he
    dsimp only at he
    exact h1 e he
  | some rid =>
    intro e he
    split_ifs at he <;> dsimp only at he
    · exact h1 e he
    · rcases List.mem_append.mp he with h | h
      · exact h1 e h
      · rcases List.mem_cons.mp h with rfl | h'
        · rfl
        · simp at h'

theorem synthOffset_no_gep (nid : Nat) (d : GepData) (idxOps : List VRef) :
    ∀ e ∈ (synthOffset nid d idxOps).emitted, isGepKind e.kind = false := by
  unfold synthOffset
  cases accumulateConstantOffset d with
  | none => exact emitGEPOffset_no_gep nid _
  | some c => simp

theorem createShl_no_gep (v : VRef) (amt nid : Nat) (nm : Str) :
    ∀ e ∈ (createShl v amt nid nm).emitted, isGepKind e.kind = false := by
  cases v <;> simp [createShl, isGepKind]

theorem emitSequence_no_gep (f : Func) (g : Instr) (d : GepData) :
    ∀ e ∈ (emitSequence f g d).emitted, isGepKind e.kind = false := by
  intro e he
  simp only [emitSequence] at he
  rcases List.mem_append.mp he with h | h
  · rcases List.mem_append.mp h with h' | h'
    · rcases List.mem_append.mp h' with h'' | h''
      · simp only [List.mem_cons] at h''
        rcases h'' with rfl | rfl | rfl | rfl | hfalse
        · rfl
        · rfl
        · rfl
        · rfl
        · simp at hfalse
      · exact synthOffset_no_gep (f.nextId + 4) d (g.ops.drop 1) e h''
    · exact createShl_no_gep _ 49 _ _ e h'
  · simp only [List.mem_cons] at h
    rcases h with rfl | rfl | rfl | hfalse
    · rfl
    · rfl
    · rfl
    · simp at hfalse

theorem pairwise_lt_append (l1 l2 : List Instr)
    (h1 : l1.Pairwise (fun a b => a.id < b.id))
    (h2 : l2.Pairwise (fun a b => a.id < b.id)) (m : Nat)
    (hu : ∀ e ∈ l1, e.id < m) (hl : ∀ e ∈ l2, m ≤ e.id) :
    (l1 ++ l2).Pairwise (fun a b => a.id < b.id) :=
  List.pairwise_append.mpr
    ⟨h1, h2, fun a ha b hb => Nat.lt_of_lt_of_le (hu a ha) (hl b hb)⟩

theorem tagging_pairwise_abstract (n m1 m2 : Nat) (hn : n + 4 ≤ m1) (hm : m1 ≤ m2)
    (A B : List Instr)
    (hA1 : ∀ e ∈ A, n + 4 ≤ e.id) (hA2 : ∀ e ∈ A, e.id < m1)
    (hAP : A.Pairwise (fun a b => a.id < b.id))
    (hB1 : ∀ e ∈ B, m1 ≤ e.id) (hB2 : ∀ e ∈ B, e.id < m2)
    (hBP : B.Pairwise (fun a b => a.id < b.id))
    (i1 i2 i3 i4 i5 i6 i7 : Instr)
    (h1 : i1.id = n) (h2 : i2.id = n + 1) (h3 : i3.id = n + 2) (h4 : i4.id = n + 3)
    (h5 : i5.id = m2) (h6 : i6.id = m2 + 1) (h7 : i7.id = m2 + 2) :
    (i1 :: i2 :: i3 :: i4 :: (A ++ B ++ [i5, i6, i7])).Pairwise
      (fun a b => a.id < b.id) := by
  have htail : ∀ e ∈ A ++ B ++ [i5, i6, i7], n + 4 ≤ e.id := by
    intro e he
    rcases List.mem_append.mp he with h | h
    · rcases List.mem_append.mp h with h' | h'
      · exact hA1 e h'
      · exact Nat.le_trans hn (hB1 e h')
    · rcases List.mem_cons.mp h with rfl | h'
      · omega
      · rcases List.mem_cons.mp h' with rfl | h''
        · omega
        · rcases List.mem_cons.mp h'' with rfl | h3'
          · omega
          · simp at h3'
  have hlast : ([i5, i6, i7] : List Instr).Pairwise (fun a b => a.id < b.id) := by
    refine List.pairwise_cons.mpr ⟨?_, List.pairwise_cons.mpr ⟨?_, ?_⟩⟩
    · intro e he
      rcases List.mem_cons.mp he with rfl | h'
      · omega
      · rcases List.mem_cons.mp h' with rfl | h''
        · omega
        · simp at h''
    · intro e he
      rcases List.mem_cons.mp he with rfl | h'
      · omega
      · simp at h'
    · simp
  have hAB : (A ++ B).Pairwise (fun a b => a.id < b.id) :=
    pairwise_lt_append A B hAP hBP m1 hA2 hB1
  have htailP : (A ++ B ++ [i5, i6, i7]).Pairwise (fun a b => a.id < b.id) := by
    apply pairwise_lt_append _ _ hAB hlast m2 ?_ ?_
    · intro e he
      rcases List.mem_append.mp he with h | h
      · have := hA2 e h
        omega
      · exact hB2 e h
    · intro e he
      rcases List.mem_cons.mp he with rfl | h'
      · omega
      · rcases List.mem_cons.mp h' with rfl | h''
        · omega
        · rcases List.mem_cons.mp h'' with rfl | h3'
          · omega
          · simp at h3'
  refine List.pairwise_cons.mpr ⟨?_, List.pairwise_cons.mpr ⟨?_,
    List.pairwise_cons.mpr ⟨?_, List.pairwise_cons.mpr ⟨?_, htailP⟩⟩⟩⟩
  · intro e he
    rcases List.mem_cons.mp he with rfl | h'
    · omega
    · rcases List.mem_cons.mp h' with rfl | h''
      · omega
      · rcases List.mem_cons.mp h'' with rfl | h3'
        · omega
        · have := htail e h3'
          omega
  · intro e he
    rcases List.mem_cons.mp he with rfl | h'
    · omega
    · rcases List.mem_cons.mp h' with rfl | h''
      · omega
      · have := htail e h''
        omega
  · intro e he
    rcases List.mem_cons.mp he with rfl | h'
    · omega
    · have := htail e h'
      omega
  · intro e he
    have := htail e he
    omega

theorem emitSequence_emitted_pairwise (f : Func) (g : Instr) (d : GepData) :
    (emitSequence f g d).emitted.Pairwise (fun a b => a.id < b.id) := by
  unfold emitSequence
  dsimp only
  simp only [List.cons_append, List.nil_append]
  apply tagging_pairwise_abstract f.nextId
      (synthOffset (f.nextId + 4) d (g.ops.drop 1)).nid
      (createShl (synthOffset (f.nextId + 4) d (g.ops.drop 1)).diff 49
        (synthOffset (f.nextId + 4) d (g.ops.drop 1)).nid
        ((if g.name.isEmpty then ([] : Str) else g.name ++ ['.'])
          ++ ['s', 'h', 'i', 'f', 't', 'e', 'd'])).nid
      (synthOffset_nid_le (f.nextId + 4) d (g.ops.drop 1))
      (createShl_nid_le _ _ _ _)
      (synthOffset (f.nextId + 4) d (g.ops.drop 1)).emitted
      (createShl (synthOffset (f.nextId + 4) d (g.ops.drop 1)).diff 49
        (synthOffset (f.nextId + 4) d (g.ops.drop 1)).nid
        ((if g.name.isEmpty then ([] : Str) else g.name ++ ['.'])
          ++ ['s', 'h', 'i', 'f', 't', 'e', 'd'])).emitted
      (synthOffset_emitted_le (f.nextId + 4) d (g.ops.drop 1))
      (synthOffset_emitted_lt (f.nextId + 4) d (g.ops.drop 1))
      (synthOffset_emitted_pairwise (f.nextId + 4) d (g.ops.drop 1))
      (createShl_emitted_le _ _ _ _) (createShl_emitted_lt _ _ _ _)
      (createShl_emitted_pairwise _ _ _ _) <;> rfl

theorem tagging_ub_abstract (n m1 m2 : Nat) (hn : n + 4 ≤ m1) (hm : m1 ≤ m2)
    (A B : List Instr) (hA2 : ∀ e ∈ A, e.id < m1) (hB2 : ∀ e ∈ B, e.id < m2)
    (i1 i2 i3 i4 i5 i6 i7 : Instr)
    (h1 : i1.id = n) (h2 : i2.id = n + 1) (h3 : i3.id = n + 2) (h4 : i4.id = n + 3)
    (h5 : i5.id = m2) (h6 : i6.id = m2 + 1) (h7 : i7.id = m2 + 2) :
    ∀ e ∈ i1 :: i2 :: i3 :: i4 :: (A ++ B ++ [i5, i6, i7]), e.id ≤ m2 + 2 := by
  intro e he
  rcases List.mem_cons.mp he with rfl | he'
  · omega
  · rcases List.mem_cons.mp he' with rfl | he''
    · omega
    · rcases List.mem_cons.mp he'' with rfl | he3
      · omega
      · rcases List.mem_cons.mp he3 with rfl | he4
        · omega
        · rcases List.mem_append.mp he4 with h | h
          · rcases List.mem_append.mp h with h' | h'
            · have := hA2 e h'
              omega
            · have := hB2 e h'
              omega
          · rcases List.mem_cons.mp h with rfl | h'
            · omega
            · rcases List.mem_cons.mp h' with rfl | h''
              · omega
              · rcases List.mem_cons.mp h'' with rfl | h3'
                · omega
                · simp at h3'

theorem emitSequence_emitted_ub (f : Func) (g : Instr) (d : GepData) :
    ∀ e ∈ (emitSequence f g d).emitted, e.id ≤ (emitSequence f g d).newPtrId := by
  unfold emitSequence
  dsimp only
  simp only [List.cons_append, List.nil_append]
  apply tagging_ub_abstract f.nextId
      (synthOffset (f.nextId + 4) d (g.ops.drop 1)).nid
      (createShl (synthOffset (f.nextId + 4) d (g.ops.drop 1)).diff 49
        (synthOffset (f.nextId + 4) d (g.ops.drop 1)).nid
        ((if g.name.isEmpty then ([] : Str) else g.name ++ ['.'])
          ++ ['s', 'h', 'i', 'f', 't', 'e', 'd'])).nid
      (synthOffset_nid_le (f.nextId + 4) d (g.ops.drop 1))
      (createShl_nid_le _ _ _ _)
      (synthOffset (f.nextId + 4) d (g.ops.drop 1)).emitted
      (createShl (synthOffset (f.nextId + 4) d (g.ops.drop 1)).diff 49
        (synthOffset (f.nextId + 4) d (g.ops.drop 1)).nid
        ((if g.name.isEmpty then ([] : Str) else g.name ++ ['.'])
          ++ ['s', 'h', 'i', 'f', 't', 'e', 'd'])).emitted
      (synthOffset_emitted_lt (f.nextId + 4) d (g.ops.drop 1))
      (createShl_emitted_lt _ _ _ _) <;> rfl

theorem insertAfter_filter_not (gid : Nat) (em : List Instr) (P : Instr → Bool)
    (hem : ∀ e ∈ em, P e = false) :
    ∀ l : List Instr, (insertAfter l gid em).filter P = l.filter P := by
  intro l
  induction l with
  | nil => rfl
  | cons x r ih =>
    simp only [insertAfter]
    by_cases h : (x.id == gid) = true
    · rw [if_pos h]
      rw [List.filter_cons, List.filter_cons, List.filter_append]
      rw [List.filter_eq_nil_iff.mpr (by intro e he; simp [hem e he])]
      rw [List.nil_append]
    · rw [if_neg h, List.filter_cons, List.filter_cons, ih]

theorem insertAfter_mem (gid : Nat) (em : List Instr) :
    ∀ l : List Instr, ∀ x ∈ insertAfter l gid em, x ∈ l ∨ x ∈ em := by
  intro l
  induction l with
  | nil => intro x hx; simp [insertAfter] at hx
  | cons y r ih =>
    intro x hx
    simp only [insertAfter] at hx
    by_cases h : (y.id == gid) = true
    · rw [if_pos h] at hx
      rcases List.mem_cons.mp hx with rfl | hx'
      · exact Or.inl (List.mem_cons_self _ _)
      · rcases List.mem_append.mp hx' with h' | h'
        · exact Or.inr h'
        · exact Or.inl (List.mem_cons_of_mem _ h')
    · rw [if_neg h] at hx
      rcases List.mem_cons.mp hx with rfl | hx'
      · exact Or.inl (List.mem_cons_self _ _)
      · rcases ih x hx' with h' | h'
        · exact Or.inl (List.mem_cons_of_mem _ h')
        · exact Or.inr h'

theorem insertAfter_pairwise (gid : Nat) (em : List Instr)
    (hemP : em.Pairwise (fun a b => a.id ≠ b.id)) :
    ∀ l : List Instr, l.Pairwise (fun a b => a.id ≠ b.id) →
      (∀ x ∈ l, ∀ e ∈ em, x.id ≠ e.id) →
      (insertAfter l gid em).Pairwise (fun a b => a.id ≠ b.id) := by
  intro l
  induction l with
  | nil => intro _ _; exact List.Pairwise.nil
  | cons y r ih =>
    intro hp hdisj
    obtain ⟨hy, hr⟩ := List.pairwise_cons.mp hp
    simp only [insertAfter]
    by_cases h : (y.id == gid) = true
    · rw [if_pos h]
      refine List.pairwise_cons.mpr ⟨?_, ?_⟩
      · intro b hb
        rcases List.mem_append.mp hb with h' | h'
        · exact hdisj y (List.mem_cons_self _ _) b h'
        · exact hy b h'
      · rw [List.pairwise_append]
        refine ⟨hemP, hr, ?_⟩
        intro a ha b hb
        exact Ne.symm (hdisj b (List.mem_cons_of_mem _ hb) a ha)
    · rw [if_neg h]
      refine List.pairwise_cons.mpr ⟨?_, ?_⟩
      · intro b hb
        rcases insertAfter_mem gid em r b hb with h' | h'
        · exact hy b h'
        · exact hdisj y (List.mem_cons_self _ _) b h'
      · exact ih hr (fun x hx => hdisj x (List.mem_cons_of_mem _ hx))

theorem rewriteGep_extVals (f' : Func) (g : Instr) (d : GepData) :
    (rewriteGep f' g d).extVals = f'.extVals := rfl

theorem rewriteGep_nextId (f' : Func) (g : Instr) (d : GepData) :
    (rewriteGep f' g d).nextId = (emitSequence f' g d).newPtrId + 1 := rfl

theorem rewriteGep_nameOf (f' : Func) (g : Instr) (d : GepData) :
    ∀ x : Nat, x < f'.nextId → nameOf (rewriteGep f' g d) x = nameOf f' x := by
  intro x hx
  have hrew : (rewriteGep f' g d).instrs
      = (insertAfter f'.instrs g.id (emitSequence f' g d).emitted).map
          (fun u =>
            if (f'.instrs.filter (fun u => u.ops.contains (VRef.ref g.id))).any
                (fun v => v.id == u.id) then
              { u with ops := u.ops.map (fun o =>
                  if o == VRef.ref g.id then VRef.ref (emitSequence f' g d).newPtrId
                  else o) }
            else u) := rfl
  have hid : ∀ u : Instr,
      ((fun u : Instr =>
        if (f'.instrs.filter (fun u => u.ops.contains (VRef.ref g.id))).any
            (fun v => v.id == u.id) then
          { u with ops := u.ops.map (fun o =>
              if o == VRef.ref g.id then VRef.ref (emitSequence f' g d).newPtrId
              else o) }
        else u) u).id = u.id := by
    intro u
    dsimp only
    split_ifs <;> rfl
  have hname : ∀ u : Instr,
      ((fun u : Instr =>
        if (f'.instrs.filter (fun u => u.ops.contains (VRef.ref g.id))).any
            (fun v => v.id == u.id) then
          { u with ops := u.ops.map (fun o =>
              if o == VRef.ref g.id then VRef.ref (emitSequence f' g d).newPtrId
              else o) }
        else u) u).name = u.name := by
    intro u
    dsimp only
    split_ifs <;> rfl
  have hfi : findInstr (rewriteGep f' g d) x
      = (f'.instrs.find? (fun i => i.id == x)).map
          (fun u =>
            if (f'.instrs.filter (fun u => u.ops.contains (VRef.ref g.id))).any
                (fun v => v.id == u.id) then
              { u with ops := u.ops.map (fun o =>
                  if o == VRef.ref g.id then VRef.ref (emitSequence f' g d).newPtrId
                  else o) }
            else u) := by
    unfold findInstr
    rw [hrew, find?_map_idpres _ hid, insertAfter_find?_old _ _ _ ?_]
    intro e he
    have := emitSequence_emitted_le f' g d e he
    omega
  unfold nameOf
  unfold findInstr at hfi ⊢
  rw [hfi]
  cases hf : f'.instrs.find? (fun i => i.id == x) with
  | none =>
    dsimp only [Option.map_none']
    rfl
  | some u =>
    dsimp only [Option.map_some']
    rw [hname u]

theorem rewriteGep_wfPreserve (f' : Func) (g : Instr) (d : GepData)
    (hp : f'.instrs.Pairwise (fun a b => a.id ≠ b.id))
    (hlt : ∀ i ∈ f'.instrs, i.id < f'.nextId) :
    (rewriteGep f' g d).instrs.Pairwise (fun a b => a.id ≠ b.id) ∧
    (∀ i ∈ (rewriteGep f' g d).instrs, i.id < (rewriteGep f' g d).nextId) ∧
    f'.nextId ≤ (rewriteGep f' g d).nextId := by
  have hub := emitSequence_emitted_ub f' g d
  have hle := emitSequence_emitted_le f' g d
  have hge := emitSequence_newPtrId_ge f' g d
  have hemP : (emitSequence f' g d).emitted.Pairwise (fun a b => a.id ≠ b.id) :=
    (emitSequence_emitted_pairwise f' g d).imp (fun h => Nat.ne_of_lt h)
  have hiaP : (insertAfter f'.instrs g.id (emitSequence f' g d).emitted).Pairwise
      (fun a b => a.id ≠ b.id) := by
    apply insertAfter_pairwise _ _ hemP _ hp
    intro x hx e he
    have := hlt x hx
    have := hle e he
    omega
  refine ⟨?_, ?_, ?_⟩
  · show ((insertAfter f'.instrs g.id (emitSequence f' g d).emitted).map _).Pairwise _
    rw [List.pairwise_map]
    apply hiaP.imp
    intro a b hab
    dsimp only
    split_ifs <;> exact hab
  · intro i hi
    obtain ⟨x, hx, hxe⟩ := List.mem_map.mp hi
    rw [rewriteGep_nextId]
    have hxid : i.id = x.id := by
      rw [← hxe]
      split_ifs <;> rfl
    rw [hxid]
    rcases insertAfter_mem g.id (emitSequence f' g d).emitted f'.instrs x hx with h | h
    · have := hlt x h
      omega
    · have := hub x h
      omega
  · rw [rewriteGep_nextId]
    omega

theorem findInstr_of_mem (f' : Func) (hp : f'.instrs.Pairwise (fun a b => a.id ≠ b.id))
    (x : Instr) (hx : x ∈ f'.instrs) : findInstr f' x.id = some x := by
  unfold findInstr
  exact find?_key_eq Instr.id x f'.instrs hp hx

theorem runOnFuncAux_shift (gids : List Nat) :
    ∀ (f : Func) (c : Nat),
      gids.foldl
        (fun acc gid =>
          let r := processGepId acc.1 gid
          (r.1, acc.2 + (if r.2 then 1 else 0))) (f, c)
      = ((runOnFuncAux f gids).1, c + (runOnFuncAux f gids).2) := by
  induction gids with
  | nil => intro f c; simp [runOnFuncAux]
  | cons gid rest ih =>
    intro f c
    unfold runOnFuncAux
    rw [List.foldl_cons, List.foldl_cons]
    dsimp only
    rw [ih (processGepId f gid).1 (c + if (processGepId f gid).2 then 1 else 0)]
    rw [ih (processGepId f gid).1 (0 + if (processGepId f gid).2 then 1 else 0)]
    unfold runOnFuncAux
    rw [Prod.mk.injEq]
    exact ⟨rfl, by omega⟩

theorem skip_not_fail_witness :
    processGepId exZeroFunc 1 = (exZeroFunc, false) ∧
    processGepId exVtFunc 1 = (exVtFunc, false) ∧
    processGepId exVbFunc 1 = (exVbFunc, false) ∧
    processGepId exZtvFunc 1 = (exZtvFunc, false) ∧
    processGepId exVecFunc 1 = (exVecFunc, false) :=
  ⟨skip_not_fail exZeroFunc exZeroGep ⟨[⟨some 0, 4, []⟩], false⟩ (by decide) (by decide)
      (Or.inl (by decide)),
   skip_not_fail exVtFunc exVtGep ⟨[⟨some 1, 8, []⟩], false⟩ (by decide) (by decide)
      (Or.inr (Or.inl (by decide))),
   skip_not_fail exVbFunc exVbGep ⟨[⟨none, 1, "vbase.offset.x".data⟩], false⟩ (by decide)
      (by decide) (Or.inr (Or.inl (by decide))),
   skip_not_fail exZtvFunc exZtvGep ⟨[⟨some 2, 8, []⟩], false⟩ (by decide) (by decide)
      (Or.inr (Or.inl (by decide))),
   skip_not_fail exVecFunc exVecGep ⟨[⟨some 1, 4, []⟩], true⟩ (by decide) (by decide)
      (Or.inr (Or.inr (by decide)))⟩

theorem dead_gep_rewritten_witness :
    findInstr exDeadFunc 1 = some exGep ∧ qualifies exDeadFunc exGep = some exGepData ∧
    (processGepId exDeadFunc 1 =
      ({ exDeadFunc with
          instrs := insertAfter exDeadFunc.instrs 1 (emitSequence exDeadFunc exGep exGepData).emitted,
          nextId := (emitSequence exDeadFunc exGep exGepData).newPtrId + 1 }, true) ∧
      (emitSequence exDeadFunc exGep exGepData).emitted ≠ []) :=
  ⟨by decide, by decide,
   dead_gep_rewritten exDeadFunc exGep exGepData (by decide) (by decide) (by decide)⟩

theorem constant_folding_witness :
    (∀ i ∈ exGepData.indices, i.constVal.isSome = true) ∧
    ((synthOffset (exFunc.nextId + 4) exGepData (exGep.ops.drop 1) =
        ⟨.constV (i64 ((exGepData.indices.map
          (fun i => i.constVal.getD 0 * i.stride)).sum)), [], exFunc.nextId + 4⟩) ∧
    ((emitSequence exFunc exGep exGepData).emitted.countP
        (fun e => e.kind == IKind.mulI) = 0) ∧
    ((emitSequence exFunc exGep exGepData).emitted.countP
        (fun e => e.kind == IKind.addI) = 1)) :=
  ⟨by decide, constant_folding exFunc exGep exGepData (by decide)⟩

theorem consumer_snapshot_framing_witness :
    funcWF exFunc ∧ exGep ∈ exFunc.instrs ∧ (VRef.ref exGep.id) ∉ exGep.ops ∧
    ((∀ u ∈ exFunc.instrs, (VRef.ref exGep.id) ∈ u.ops →
        findInstr (rewriteGep exFunc exGep exGepData) u.id
          = some { u with ops := u.ops.map (fun o =>
              if o == VRef.ref exGep.id
              then VRef.ref (emitSequence exFunc exGep exGepData).newPtrId else o) }) ∧
     (∀ u ∈ exFunc.instrs, (VRef.ref exGep.id) ∉ u.ops →
        findInstr (rewriteGep exFunc exGep exGepData) u.id = some u) ∧
     findInstr (rewriteGep exFunc exGep exGepData) exFunc.nextId =
       some ⟨exFunc.nextId, (if exGep.name.isEmpty then ([] : Str)
          else exGep.name ++ ".".data) ++ "int".data, .ptrtoint, [.ref exGep.id]⟩ ∧
     findInstr (rewriteGep exFunc exGep exGepData) exGep.id = some exGep) :=
  ⟨⟨by decide, by decide⟩, by decide, by decide,
   consumer_snapshot_framing exFunc exGep exGepData ⟨by decide, by decide⟩
     (by decide) (by decide)⟩

theorem invoke_edge_splitting_witness :
    cfgWF exCFG ∧ exSrcBB ∈ exCFG.blocks ∧ exSrcBB.term = .invokeT 1 2 ∧
    exDstBB ∈ exCFG.blocks ∧ exDstBB.bid = 1 ∧
    (∃ r, splitInvokeEdge exCFG exSrcBB.bid = some r ∧
      r.newBid = exCFG.nextBid ∧
      (∃ nb ∈ r.cfg.blocks, nb = ⟨r.newBid, [], .brT 1⟩) ∧
      preds r.cfg r.newBid = [exSrcBB.bid] ∧
      succsOf r.cfg r.newBid = [1] ∧
      (∃ src2 ∈ r.cfg.blocks, src2.bid = exSrcBB.bid ∧
        src2.term = .invokeT r.newBid 2) ∧
      (∃ dst2 ∈ r.cfg.blocks, dst2.bid = 1 ∧
        dst2.phis = exDstBB.phis.map
          (fun p => ⟨p.incoming.map (rekeyEntry exSrcBB.bid r.newBid)⟩))) :=
  ⟨⟨by decide, by decide, by decide, by decide⟩, by decide, by decide, by decide, by decide,
   invoke_edge_splitting exCFG exSrcBB exDstBB 1 2
     ⟨by decide, by decide, by decide, by decide⟩
     (by decide) (by decide) (by decide) (by decide)⟩

theorem invoke_split_rekeys_every_witness :
    cfgWF exCFG2 ∧ exSrcBB2 ∈ exCFG2.blocks ∧ exSrcBB2.term = .invokeT 1 2 ∧
    exDstBB2 ∈ exCFG2.blocks ∧ exDstBB2.bid = 1 ∧
    (∃ r, splitInvokeEdge exCFG2 exSrcBB2.bid = some r ∧
      (∀ t ∈ r.cfg.blocks, t.bid = 1 → ∀ p ∈ t.phis, ∀ e ∈ p.incoming,
        e.1 ≠ exSrcBB2.bid) ∧
      (∃ dst2 ∈ r.cfg.blocks, dst2.bid = 1 ∧
        dst2.phis.length = exDstBB2.phis.length ∧
        ∀ k (hk1 : k < exDstBB2.phis.length) (hk2 : k < dst2.phis.length),
          (dst2.phis.get ⟨k, hk2⟩).incoming.countP (fun e => e.1 == r.newBid)
            = (exDstBB2.phis.get ⟨k, hk1⟩).incoming.countP
                (fun e => e.1 == exSrcBB2.bid))) :=
  ⟨⟨by decide, by decide, by decide, by decide⟩, by decide, by decide, by decide, by decide,
   invoke_split_rekeys_every exCFG2 exSrcBB2 exDstBB2 1 2
     ⟨by decide, by decide, by decide, by decide⟩
     (by decide) (by decide) (by decide) (by decide)⟩

/-- Counterexample to Claim C3 as stated: on `exFunc` (one qualifying GEP
with one consumer) the first run performs 1 rewrite, and the second run
again performs 1 rewrite — not zero — because the pass does not track
already-rewritten instructions and the dead original still scans as a
valid non-zero-index, non-vtable candidate. -/
theorem idempotence_counterexample :
    rewritesPerformed exFunc = 1 ∧ rewritesPerformed (runOnFunc exFunc) = 1 := by
  decide

theorem strStartsWith_append_dot (a b p : Str) (hdot : '.' ∉ p) :
    strStartsWith (a ++ '.' :: b) p = strStartsWith a p := by
  induction a generalizing p with
  | nil =>
    cases p with
    | nil => rfl
    | cons q ps =>
      have hq : ('.' == q) = false := by
        have hne : '.' ≠ q := by
          intro h
          subst h
          exact hdot (List.mem_cons_self _ _)
        simpa using hne
      show (('.' == q) && strStartsWith b ps) = false
      rw [hq, Bool.false_and]
  | cons x a' ih =>
    cases p with
    | nil => rfl
    | cons q ps =>
      show ((x == q) && strStartsWith (a' ++ '.' :: b) ps)
        = ((x == q) && strStartsWith a' ps)
      rw [ih ps (fun h => hdot (List.mem_cons_of_mem q h))]

theorem newPtrName_obs (nm p : Str) (hdot : '.' ∉ p)
    (hnp : strStartsWith ("newptr".data) p = false) :
    (!((if nm.isEmpty then ([] : Str) else nm ++ ".".data) ++ "newptr".data).isEmpty
      && strStartsWith ((if nm.isEmpty then ([] : Str) else nm ++ ".".data)
           ++ "newptr".data) p)
    = (!nm.isEmpty && strStartsWith nm p) := by
  cases nm with
  | nil =>
    simp only [List.isEmpty_nil, if_true, List.nil_append]
    rw [hnp]
    rfl
  | cons c rest =>
    have h1 : ((if (c :: rest : Str).isEmpty then ([] : Str) else (c :: rest) ++ ".".data)
        ++ "newptr".data) = (c :: rest : Str) ++ '.' :: "newptr".data := by
      simp [List.append_assoc]
    rw [h1]
    rw [strStartsWith_append_dot (c :: rest) ("newptr".data) p hdot]
    rfl

theorem rewriteGep_instrs_eq (F : Func) (g : Instr) (d : GepData) :
    (rewriteGep F g d).instrs
      = (insertAfter F.instrs g.id (emitSequence F g d).emitted).map
          (redirectUses F g.id (emitSequence F g d).newPtrId) := rfl

theorem redirectUses_id (F : Func) (gid nid : Nat) (u : Instr) :
    (redirectUses F gid nid u).id = u.id := by
  unfold redirectUses
  split_ifs <;> rfl

theorem redirectUses_name (F : Func) (gid nid : Nat) (u : Instr) :
    (redirectUses F gid nid u).name = u.name := by
  unfold redirectUses
  split_ifs <;> rfl

theorem redirectUses_kind (F : Func) (gid nid : Nat) (u : Instr) :
    (redirectUses F gid nid u).kind = u.kind := by
  unfold redirectUses
  split_ifs <;> rfl

theorem redirectUses_gepBase (F : Func) (gid nid : Nat)
    (u : Instr) (hu : u ∈ F.instrs) :
    gepBase (redirectUses F gid nid u)
      = (if gepBase u == VRef.ref gid then VRef.ref nid else gepBase u) := by
  unfold redirectUses
  by_cases hc : (F.instrs.filter (fun w => w.ops.contains (VRef.ref gid))).any
      (fun v => v.id == u.id) = true
  · rw [if_pos hc]
    show (u.ops.map _).headD (VRef.constV 0) = _
    cases hops : u.ops with
    | nil =>
      show (VRef.constV 0) = (if gepBase u == VRef.ref gid then VRef.ref nid else gepBase u)
      have hb : gepBase u = VRef.constV 0 := by
        unfold gepBase
        rw [hops]
        rfl
      rw [hb]
      rfl
    | cons o rest =>
      show (if o == VRef.ref gid then VRef.ref nid else o) = _
      have hb : gepBase u = o := by
        unfold gepBase
        rw [hops]
        rfl
      rw [hb]
  · rw [if_neg hc]
    cases hb : (gepBase u == VRef.ref gid) with
    | false => rw [if_neg (by simp [hb])]
    | true =>
      exfalso
      have heq : gepBase u = VRef.ref gid := by simpa using hb
      cases hops : u.ops with
      | nil =>
        unfold gepBase at heq
        rw [hops] at heq
        simp at heq
      | cons o rest =>
        have ho : o = VRef.ref gid := by
          unfold gepBase at heq
          rw [hops] at heq
          simpa using heq
        have hmem : VRef.ref gid ∈ u.ops := by
          rw [hops, ← ho]
          exact List.mem_cons_self _ _
        have hfilt : u ∈ F.instrs.filter (fun w => w.ops.contains (VRef.ref gid)) :=
          List.mem_filter.mpr ⟨hu, List.elem_iff.mpr hmem⟩
        exact hc (List.any_eq_true.mpr ⟨u, hfilt, by simp⟩)

theorem find?_cons_false {p : Instr → Bool} {a : Instr} {l : List Instr}
    (h : p a = false) : (a :: l).find? p = l.find? p := by
  rw [List.find?_cons, h]

theorem find?_cons_true {p : Instr → Bool} {a : Instr} {l : List Instr}
    (h : p a = true) : (a :: l).find? p = some a := by
  rw [List.find?_cons, h]

theorem tagging_find_last_abstract (n m1 m2 : Nat) (hn : n + 4 ≤ m1) (hm : m1 ≤ m2)
    (A B : List Instr) (hA2 : ∀ e ∈ A, e.id < m1) (hB2 : ∀ e ∈ B, e.id < m2)
    (i1 i2 i3 i4 i5 i6 i7 : Instr)
    (h1 : i1.id = n) (h2 : i2.id = n + 1) (h3 : i3.id = n + 2) (h4 : i4.id = n + 3)
    (h5 : i5.id = m2) (h6 : i6.id = m2 + 1) (h7 : i7.id = m2 + 2) :
    (i1 :: i2 :: i3 :: i4 :: (A ++ B ++ [i5, i6, i7])).find?
      (fun e => e.id == m2 + 2) = some i7 := by
  rw [find?_cons_false (show (i1.id == m2 + 2) = false by simp; omega),
      find?_cons_false (show (i2.id == m2 + 2) = false by simp; omega),
      find?_cons_false (show (i3.id == m2 + 2) = false by simp; omega),
      find?_cons_false (show (i4.id == m2 + 2) = false by simp; omega)]
  rw [List.find?_append]
  have hAB : (A ++ B).find? (fun e => e.id == m2 + 2) = none := by
    rw [List.find?_eq_none]
    intro e he
    rcases List.mem_append.mp he with h | h
    · have := hA2 e h
      simp
      omega
    · have := hB2 e h
      simp
      omega
  rw [hAB, Option.none_or]
  rw [find?_cons_false (show (i5.id == m2 + 2) = false by simp; omega),
      find?_cons_false (show (i6.id == m2 + 2) = false by simp; omega),
      find?_cons_true (show (i7.id == m2 + 2) = true by simp [h7])]

theorem rewriteGep_findInstr_old (F : Func) (g : Instr) (d : GepData)
    (uid : Nat) (hu : uid < F.nextId) :
    findInstr (rewriteGep F g d) uid
      = (findInstr F uid).map (redirectUses F g.id (emitSequence F g d).newPtrId) := by
  unfold findInstr
  rw [rewriteGep_instrs_eq F g d]
  rw [find?_map_idpres _ (redirectUses_id F g.id _) uid]
  rw [insertAfter_find?_old g.id uid _ ?_ F.instrs]
  intro e he
  have := emitSequence_emitted_le F g d e he
  omega

theorem isGlobalVarId_rewrite (F : Func) (g : Instr) (d : GepData) (x : Nat) :
    isGlobalVarId (rewriteGep F g d) x = isGlobalVarId F x := rfl

theorem isGlobalVarId_none (F : Func) (x : Nat)
    (hx : ∀ v ∈ F.extVals, v.id ≠ x) : isGlobalVarId F x = false := by
  unfold isGlobalVarId
  have hnone : F.extVals.find? (fun v => v.id == x) = none := by
    rw [List.find?_eq_none]
    intro v hv
    simp
    exact hx v hv
  rw [hnone]

theorem rewriteGep_nameOf_newPtr (F : Func) (g : Instr) (d : GepData)
    (hlt : ∀ i ∈ F.instrs, i.id < F.nextId) (hg : g ∈ F.instrs) :
    nameOf (rewriteGep F g d) (emitSequence F g d).newPtrId
      = (if g.name.isEmpty then ([] : Str) else g.name ++ ".".data)
          ++ "newptr".data := by
  obtain ⟨e0, hem, hename⟩ : ∃ e0 : Instr, (emitSequence F g d).emitted.find?
      (fun e => e.id == (emitSequence F g d).newPtrId) = some e0 ∧
      e0.name = (if g.name.isEmpty then ([] : Str) else g.name ++ ".".data)
        ++ "newptr".data := by
    refine ⟨⟨(emitSequence F g d).newPtrId,
        (if g.name.isEmpty then ([] : Str) else g.name ++ ".".data) ++ "newptr".data,
        .inttoptr,
        [VRef.ref ((createShl (synthOffset (F.nextId + 4) d (g.ops.drop 1)).diff 49
            (synthOffset (F.nextId + 4) d (g.ops.drop 1)).nid
            ((if g.name.isEmpty then ([] : Str) else g.name ++ ".".data)
              ++ "shifted".data)).nid + 1)]⟩, ?_, rfl⟩
    unfold emitSequence
    dsimp only
    simp only [List.cons_append, List.nil_append]
    apply tagging_find_last_abstract F.nextId
        (synthOffset (F.nextId + 4) d (g.ops.drop 1)).nid
        (createShl (synthOffset (F.nextId + 4) d (g.ops.drop 1)).diff 49
          (synthOffset (F.nextId + 4) d (g.ops.drop 1)).nid
          ((if g.name.isEmpty then ([] : Str) else g.name ++ ['.'])
            ++ ['s', 'h', 'i', 'f', 't', 'e', 'd'])).nid
        (synthOffset_nid_le (F.nextId + 4) d (g.ops.drop 1))
        (createShl_nid_le _ _ _ _)
        (synthOffset (F.nextId + 4) d (g.ops.drop 1)).emitted
        (createShl (synthOffset (F.nextId + 4) d (g.ops.drop 1)).diff 49
          (synthOffset (F.nextId + 4) d (g.ops.drop 1)).nid
          ((if g.name.isEmpty then ([] : Str) else g.name ++ ['.'])
            ++ ['s', 'h', 'i', 'f', 't', 'e', 'd'])).emitted
        (synthOffset_emitted_lt (F.nextId + 4) d (g.ops.drop 1))
        (createShl_emitted_lt _ _ _ _) <;> rfl
  have hfif : findInstr (rewriteGep F g d) (emitSequence F g d).newPtrId
      = some (redirectUses F g.id (emitSequence F g d).newPtrId e0) := by
    unfold findInstr
    rw [rewriteGep_instrs_eq F g d]
    rw [find?_map_idpres _ (redirectUses_id F g.id _) _]
    rw [insertAfter_find?_fresh g.id (emitSequence F g d).newPtrId _ _ hem F.instrs
      ?_ ⟨g, hg, rfl⟩]
    · rfl
    · intro x hx
      have h1 := hlt x hx
      have h2 := emitSequence_newPtrId_ge F g d
      omega
  unfold nameOf
  unfold findInstr at hfif ⊢
  rw [hfif]
  dsimp only
  rw [redirectUses_name, hename]

theorem obs_step (F : Func) (g : Instr) (d : GepData)
    (hWF : stateWF F) (hg : g ∈ F.instrs) (v : VRef)
    (hv : ∀ r : Nat, v = VRef.ref r → r < F.nextId) :
    vtObs (rewriteGep F g d)
        (if v == VRef.ref g.id then VRef.ref (emitSequence F g d).newPtrId else v)
      = vtObs F v ∧
    ztvObs (rewriteGep F g d)
        (if v == VRef.ref g.id then VRef.ref (emitSequence F g d).newPtrId else v)
      = ztvObs F v := by
  obtain ⟨hp, hlt, hops, hexb, hdisj⟩ := hWF
  by_cases hveq : v = VRef.ref g.id
  · rw [if_pos (by simp [hveq])]
    have hnm1 : refName (rewriteGep F g d) (VRef.ref (emitSequence F g d).newPtrId)
        = (if g.name.isEmpty then ([] : Str) else g.name ++ ".".data)
            ++ "newptr".data := by
      show nameOf (rewriteGep F g d) (emitSequence F g d).newPtrId = _
      exact rewriteGep_nameOf_newPtr F g d hlt hg
    have hnm2 : refName F v = g.name := by
      rw [hveq]
      show nameOf F g.id = g.name
      unfold nameOf
      rw [show findInstr F g.id = some g from findInstr_of_mem F hp g hg]
    have hgv1 : refIsGlobalVar (rewriteGep F g d)
        (VRef.ref (emitSequence F g d).newPtrId) = false := by
      show isGlobalVarId (rewriteGep F g d) (emitSequence F g d).newPtrId = false
      rw [isGlobalVarId_rewrite]
      apply isGlobalVarId_none
      intro w hw
      have h1 := hexb w hw
      have h2 := emitSequence_newPtrId_ge F g d
      omega
    have hgv2 : refIsGlobalVar F v = false := by
      rw [hveq]
      show isGlobalVarId F g.id = false
      apply isGlobalVarId_none
      intro w hw
      exact hdisj w hw g hg
    constructor
    · simp only [vtObs]
      rw [hnm1, hnm2]
      exact newPtrName_obs g.name ("vtable".data) (by decide) (by decide)
    · simp only [ztvObs]
      rw [hgv1, hgv2, Bool.false_and, Bool.false_and]
  · rw [if_neg (by simp [hveq])]
    cases v with
    | constV c => exact ⟨rfl, rfl⟩
    | ref b =>
      have hb : b < F.nextId := hv b rfl
      have hnm : refName (rewriteGep F g d) (VRef.ref b) = refName F (VRef.ref b) := by
        show nameOf (rewriteGep F g d) b = nameOf F b
        exact rewriteGep_nameOf F g d b hb
      constructor
      · simp only [vtObs]
        rw [hnm]
      · simp only [ztvObs]
        rw [hnm]
        rfl

theorem emitGEPOffsetAux_running_lt (l : List (Index × VRef)) :
    ∀ (nid : Nat) (running : Option Nat),
      (∀ r0 : Nat, running = some r0 → r0 < nid) →
      ∀ r0 : Nat, (emitGEPOffsetAux nid l running).running = some r0 →
        r0 < (emitGEPOffsetAux nid l running).nid := by
  induction l with
  | nil =>
    intro nid running hrun r0 h
    simp only [emitGEPOffsetAux] at h ⊢
    exact hrun r0 h
  | cons iv rest ih =>
    intro nid running hrun r0 h
    obtain ⟨i, v⟩ := iv
    cases hc : i.constVal with
    | some c =>
      simp only [emitGEPOffsetAux, hc] at h ⊢
      exact ih nid running hrun r0 h
    | none =>
      cases running with
      | none =>
        simp only [emitGEPOffsetAux, hc] at h ⊢
        exact ih (nid + 1) (some nid)
          (by intro r1 h1; injection h1 with h2; omega) r0 h
      | some rid =>
        simp only [emitGEPOffsetAux, hc] at h ⊢
        exact ih (nid + 2) (some (nid + 1))
          (by intro r1 h1; injection h1 with h2; omega) r0 h

theorem emitGEPOffsetAux_ops_bound (M : Nat) (l : List (Index × VRef)) :
    ∀ (nid : Nat) (running : Option Nat),
      (∀ iv ∈ l, ∀ r : Nat, iv.2 = VRef.ref r → r < M) →
      (∀ r0 : Nat, running = some r0 → r0 < nid) →
      ∀ e ∈ (emitGEPOffsetAux nid l running).emitted, ∀ r : Nat,
        VRef.ref r ∈ e.ops → r < M ∨ r < (emitGEPOffsetAux nid l running).nid := by
  induction l with
  | nil =>
    intro nid running hl hrun e he
    simp [emitGEPOffsetAux] at he
  | cons iv rest ih =>
    intro nid running hl hrun e he r hr
    obtain ⟨i, v⟩ := iv
    have hlrest : ∀ iv ∈ rest, ∀ r : Nat, iv.2 = VRef.ref r → r < M :=
      fun iv hiv => hl iv (List.mem_cons_of_mem _ hiv)
    have hlv : ∀ r : Nat, v = VRef.ref r → r < M :=
      fun r hvr => hl (i, v) (List.mem_cons_self _ _) r hvr
    cases hc : i.constVal with
    | some c =>
      simp only [emitGEPOffsetAux, hc] at he ⊢
      exact ih nid running hlrest hrun e he r hr
    | none =>
      cases running with
      | none =>
        simp only [emitGEPOffsetAux, hc] at he ⊢
        rcases List.mem_cons.mp he with rfl | he'
        · rcases List.mem_cons.mp hr with h1 | h1
          · exact Or.inl (hlv r h1.symm)
          · simp at h1
        · exact ih (nid + 1) (some nid) hlrest
            (by intro r1 h1; injection h1 with h2; omega) e he' r hr
      | some rid =>
        simp only [emitGEPOffsetAux, hc] at he ⊢
        have hnle := emitGEPOffsetAux_nid_le rest (nid + 2) (some (nid + 1))
        rcases List.mem_cons.mp he with rfl | he'
        · rcases List.mem_cons.mp hr with h1 | h1
          · exact Or.inl (hlv r h1.symm)
          · simp at h1
        · rcases List.mem_cons.mp he' with rfl | he''
          · rcases List.mem_cons.mp hr with h1 | h1
            · have hr1 : rid = r := by simpa using h1.symm
              have := hrun rid rfl
              right
              omega
            · rcases List.mem_cons.mp h1 with h2 | h2
              · have hr2 : nid = r := by simpa using h2.symm
                right
                omega
              · simp at h2
          · exact ih (nid + 2) (some (nid + 1)) hlrest
              (by intro r1 h1; injection h1 with h2; omega) e he'' r hr

theorem emitGEPOffset_ops_bound (M nid : Nat) (l : List (Index × VRef))
    (hl : ∀ iv ∈ l, ∀ r : Nat, iv.2 = VRef.ref r → r < M) :
    ∀ e ∈ (emitGEPOffset nid l).emitted, ∀ r : Nat,
      VRef.ref r ∈ e.ops → r < M ∨ r < (emitGEPOffset nid l).nid := by
  have haux := emitGEPOffsetAux_ops_bound M l nid none hl (by intro r0 h; cases h)
  have hrun := emitGEPOffsetAux_running_lt l nid none (by intro r0 h; cases h)
  unfold emitGEPOffset
  dsimp only
  cases hr : (emitGEPOffsetAux nid l none).running with
  | none =>
    intro e he r hvr
    dsimp only at he ⊢
    exact haux e he r hvr
  | some rid =>
    intro e he r hvr
    split_ifs at he ⊢ <;> dsimp only at he ⊢
    · exact haux e he r hvr
    · rcases List.mem_append.mp he with h | h
      · rcases haux e h r hvr with h' | h'
        · exact Or.inl h'
        · exact Or.inr (by omega)
      · rcases List.mem_cons.mp h with rfl | h'
        · rcases List.mem_cons.mp hvr with h1 | h1
          · have h2 : rid = r := by simpa using h1.symm
            have h3 := hrun rid hr
            right
            omega
          · simp at h1
        · simp at h'

theorem emitGEPOffset_diff_bound (nid : Nat) (l : List (Index × VRef)) :
    ∀ r : Nat, (emitGEPOffset nid l).diff = VRef.ref r →
      r < (emitGEPOffset nid l).nid := by
  have hrun := emitGEPOffsetAux_running_lt l nid none (by intro r0 h; cases h)
  unfold emitGEPOffset
  dsimp only
  cases hr : (emitGEPOffsetAux nid l none).running with
  | none =>
    intro r h
    dsimp only at h
    simp at h
  | some rid =>
    intro r h
    split_ifs at h ⊢ <;> dsimp only at h ⊢
    · have h2 : rid = r := by simpa using h
      have h3 := hrun rid hr
      omega
    · have h2 : (emitGEPOffsetAux nid l none).nid = r := by simpa using h
      omega

theorem synthOffset_ops_bound (M nid : Nat) (d : GepData) (idxOps : List VRef)
    (hidx : ∀ v ∈ idxOps, ∀ r : Nat, v = VRef.ref r → r < M) :
    ∀ e ∈ (synthOffset nid d idxOps).emitted, ∀ r : Nat,
      VRef.ref r ∈ e.ops → r < M ∨ r < (synthOffset nid d idxOps).nid := by
  unfold synthOffset
  cases accumulateConstantOffset d with
  | none =>
    apply emitGEPOffset_ops_bound M nid _
    intro iv hiv r hr
    exact hidx iv.2 (List.of_mem_zip hiv).2 r hr
  | some c => simp

theorem synthOffset_diff_bound (nid : Nat) (d : GepData) (idxOps : List VRef) :
    ∀ r : Nat, (synthOffset nid d idxOps).diff = VRef.ref r →
      r < (synthOffset nid d idxOps).nid := by
  unfold synthOffset
  cases accumulateConstantOffset d with
  | none => exact emitGEPOffset_diff_bound nid _
  | some c =>
    intro r h
    simp at h

theorem createShl_ops_bound (v : VRef) (amt nid : Nat) (nm : Str) (M : Nat)
    (hv : ∀ r : Nat, v = VRef.ref r → r < M) :
    ∀ e ∈ (createShl v amt nid nm).emitted, ∀ r : Nat,
      VRef.ref r ∈ e.ops → r < M := by
  cases v with
  | constV c => simp [createShl]
  | ref i =>
    intro e he r hr
    simp only [createShl] at he
    rcases List.mem_cons.mp he with rfl | h'
    · rcases List.mem_cons.mp hr with h1 | h1
      · have h2 : i = r := by simpa using h1.symm
        exact h2 ▸ hv i rfl
      · simp at h1
    · simp at h'

theorem createShl_diff_bound (v : VRef) (amt nid : Nat) (nm : Str) :
    ∀ r : Nat, (createShl v amt nid nm).diff = VRef.ref r →
      r < (createShl v amt nid nm).nid := by
  cases v with
  | constV c =>
    intro r h
    simp [createShl] at h
  | ref i =>
    intro r h
    simp only [createShl] at h ⊢
    have h2 : nid = r := by simpa using h
    omega

theorem emitSequence_ops_bound (f : Func) (g : Instr) (d : GepData)
    (hgops : ∀ r : Nat, VRef.ref r ∈ g.ops → r < f.nextId) (hgid : g.id < f.nextId) :
    ∀ e ∈ (emitSequence f g d).emitted, ∀ r : Nat, VRef.ref r ∈ e.ops →
      r < (emitSequence f g d).newPtrId + 1 := by
  have hso := synthOffset_nid_le (f.nextId + 4) d (g.ops.drop 1)
  have hsh := createShl_nid_le (synthOffset (f.nextId + 4) d (g.ops.drop 1)).diff 49
      (synthOffset (f.nextId + 4) d (g.ops.drop 1)).nid
      ((if g.name.isEmpty then ([] : Str) else g.name ++ ['.'])
              ++ ['s', 'h', 'i', 'f', 't', 'e', 'd'])
  have hidx : ∀ v ∈ g.ops.drop 1, ∀ r : Nat, v = VRef.ref r → r < f.nextId := by
    intro v hv r hr
    exact hgops r (hr ▸ List.mem_of_mem_drop hv)
  intro e he r hr
  simp only [emitSequence] at he ⊢
  rcases List.mem_append.mp he with h | h
  · rcases List.mem_append.mp h with h' | h'
    · rcases List.mem_append.mp h' with h'' | h''
      · simp only [List.mem_cons] at h''
        rcases h'' with rfl | rfl | rfl | rfl | hfalse
        · rcases List.mem_cons.mp hr with h1 | h1
          · have h2 : g.id = r := by simpa using h1.symm
            omega
          · simp at h1
        · rcases List.mem_cons.mp hr with h1 | h1
          · have h2 : f.nextId = r := by simpa using h1.symm
            omega
          · rcases List.mem_cons.mp h1 with h2 | h2
            · simp at h2
            · simp at h2
        · rcases List.mem_cons.mp hr with h1 | h1
          · have h2 : f.nextId + 1 = r := by simpa using h1.symm
            omega
          · rcases List.mem_cons.mp h1 with h2 | h2
            · simp at h2
            · simp at h2
        · rcases List.mem_cons.mp hr with h1 | h1
          · have h2 : f.nextId + 2 = r := by simpa using h1.symm
            omega
          · simp at h1
        · simp at hfalse
      · rcases synthOffset_ops_bound f.nextId (f.nextId + 4) d (g.ops.drop 1)
            hidx e h'' r hr with h1 | h1
        · omega
        · omega
    · have h1 := createShl_ops_bound _ 49 _ _
          (synthOffset (f.nextId + 4) d (g.ops.drop 1)).nid
          (synthOffset_diff_bound (f.nextId + 4) d (g.ops.drop 1)) e h' r hr
      omega
  · simp only [List.mem_cons] at h
    rcases h with rfl | rfl | rfl | hfalse
    · rcases List.mem_cons.mp hr with h1 | h1
      · have h2 := createShl_diff_bound
            (synthOffset (f.nextId + 4) d (g.ops.drop 1)).diff 49
            (synthOffset (f.nextId + 4) d (g.ops.drop 1)).nid
            ((if g.name.isEmpty then ([] : Str) else g.name ++ ['.'])
              ++ ['s', 'h', 'i', 'f', 't', 'e', 'd']) r h1.symm
        omega
      · rcases List.mem_cons.mp h1 with h2 | h2
        · have h3 : f.nextId + 3 = r := by simpa using h2.symm
          omega
        · simp at h2
    · rcases List.mem_cons.mp hr with h1 | h1
      · have h2 : f.nextId = r := by simpa using h1.symm
        omega
      · rcases List.mem_cons.mp h1 with h2 | h2
        · have h3 : (createShl (synthOffset (f.nextId + 4) d (g.ops.drop 1)).diff 49
              (synthOffset (f.nextId + 4) d (g.ops.drop 1)).nid
              ((if g.name.isEmpty then ([] : Str) else g.name ++ ['.'])
              ++ ['s', 'h', 'i', 'f', 't', 'e', 'd'])).nid = r := by simpa using h2.symm
          omega
        · simp at h2
    · rcases List.mem_cons.mp hr with h1 | h1
      · have h2 : (createShl (synthOffset (f.nextId + 4) d (g.ops.drop 1)).diff 49
            (synthOffset (f.nextId + 4) d (g.ops.drop 1)).nid
            ((if g.name.isEmpty then ([] : Str) else g.name ++ ['.'])
              ++ ['s', 'h', 'i', 'f', 't', 'e', 'd'])).nid + 1 = r := by simpa using h1.symm
        omega
      · simp at h1
    · simp at hfalse

theorem rewriteGep_gepIds (F : Func) (g : Instr) (d : GepData) :
    (collectGeps (rewriteGep F g d)).map (fun x => x.id)
      = (collectGeps F).map (fun x => x.id) := by
  show (((insertAfter F.instrs g.id (emitSequence F g d).emitted).map
      (redirectUses F g.id (emitSequence F g d).newPtrId)).filter
        (fun i => isGepKind i.kind)).map (fun x => x.id) = _
  rw [List.filter_map]
  have hpred : ((fun i : Instr => isGepKind i.kind)
        ∘ (redirectUses F g.id (emitSequence F g d).newPtrId))
      = (fun i : Instr => isGepKind i.kind) := by
    funext u
    simp only [Function.comp_apply, redirectUses_kind]
  rw [hpred]
  rw [insertAfter_filter_not g.id _ _ (emitSequence_no_gep F g d)]
  rw [List.map_map]
  show ((collectGeps F).map _) = _
  apply List.map_congr_left
  intro x hx
  simp only [Function.comp_apply, redirectUses_id]

theorem rewriteGep_stateWF (F : Func) (g : Instr) (d : GepData)
    (hWF : stateWF F) (hg : g ∈ F.instrs) :
    stateWF (rewriteGep F g d) := by
  obtain ⟨hp, hlt, hops, hexb, hdisj⟩ := hWF
  obtain ⟨hp', hlt', hmono⟩ := rewriteGep_wfPreserve F g d hp hlt
  refine ⟨hp', hlt', ?_, ?_, ?_⟩
  · intro i hi r hr
    have hi' : i ∈ (insertAfter F.instrs g.id (emitSequence F g d).emitted).map
        (redirectUses F g.id (emitSequence F g d).newPtrId) := by
      rw [← rewriteGep_instrs_eq F g d]
      exact hi
    obtain ⟨x, hx, rfl⟩ := List.mem_map.mp hi'
    have hxbound : ∀ r : Nat, VRef.ref r ∈ x.ops → r < (rewriteGep F g d).nextId := by
      intro r' hr'
      rcases insertAfter_mem g.id (emitSequence F g d).emitted F.instrs x hx with h | h
      · have h1 := hops x h r' hr'
        have h2 := emitSequence_newPtrId_ge F g d
        rw [rewriteGep_nextId]
        omega
      · have h1 := emitSequence_ops_bound F g d (hops g hg) (hlt g hg) x h r' hr'
        rw [rewriteGep_nextId]
        omega
    unfold redirectUses at hr
    split_ifs at hr with hcond
    · dsimp only at hr
      obtain ⟨o, ho, hoe⟩ := List.mem_map.mp hr
      by_cases hc : o = VRef.ref g.id
      · rw [if_pos (by simp [hc])] at hoe
        have : (emitSequence F g d).newPtrId = r := by simpa using hoe
        rw [rewriteGep_nextId]
        omega
      · rw [if_neg (by simp [hc])] at hoe
        exact hxbound r (hoe ▸ ho)
    · exact hxbound r hr
  · intro v hv
    have hv' : v ∈ F.extVals := hv
    have h1 := hexb v hv'
    have h2 : F.nextId ≤ (rewriteGep F g d).nextId := hmono
    omega
  · intro v hv i hi
    have hv' : v ∈ F.extVals := hv
    have hi' : i ∈ (insertAfter F.instrs g.id (emitSequence F g d).emitted).map
        (redirectUses F g.id (emitSequence F g d).newPtrId) := by
      rw [← rewriteGep_instrs_eq F g d]
      exact hi
    obtain ⟨x, hx, rfl⟩ := List.mem_map.mp hi'
    rw [redirectUses_id]
    rcases insertAfter_mem g.id (emitSequence F g d).emitted F.instrs x hx with h | h
    · exact hdisj v hv' x h
    · have h1 := emitSequence_emitted_le F g d x h
      have h2 := hexb v hv'
      omega

theorem tracked_refl (f : Func) (hWF : stateWF f) : Tracked f f := by
  refine ⟨rfl, ?_, rfl, Nat.le_refl _, hWF⟩
  intro g hg
  exact ⟨g, findInstr_of_mem f hWF.1 g (List.mem_of_mem_filter hg),
    rfl, rfl, rfl, rfl, rfl⟩

theorem processGepId_tracked (f F : Func) (htr : Tracked f F)
    (g0 : Instr) (hg0 : g0 ∈ collectGeps f) :
    (processGepId F g0.id).2 = (qualifies f g0).isSome ∧
    Tracked f (processGepId F g0.id).1 := by
  obtain ⟨hids, htrk, hext, hnle, hWFF⟩ := htr
  obtain ⟨gF, hfind, hid, hname, hkind, hvt, hztv⟩ := htrk g0 hg0
  have hgFin : gF ∈ F.instrs := List.mem_of_find?_eq_some hfind
  have hq : qualifies F gF = qualifies f g0 := by
    unfold qualifies
    rw [hkind]
    cases hk : g0.kind with
    | gep d0 =>
      dsimp only
      have hvteq : isVtableGep F gF d0 = isVtableGep f g0 d0 := by
        show (vtObs F (gepBase gF)
            || (d0.indices.length == 1 && (match d0.indices.head? with
                | some i0 => !i0.name.isEmpty
                    && strStartsWith i0.name ("vbase.offset".data)
                | none => false))
            || ztvObs F (gepBase gF))
          = (vtObs f (gepBase g0)
            || (d0.indices.length == 1 && (match d0.indices.head? with
                | some i0 => !i0.name.isEmpty
                    && strStartsWith i0.name ("vbase.offset".data)
                | none => false))
            || ztvObs f (gepBase g0))
        rw [hvt, hztv]
      rw [hvteq]
    | ptrtoint => rfl
    | lshr => rfl
    | andI => rfl
    | negI => rfl
    | shl => rfl
    | addI => rfl
    | mulI => rfl
    | inttoptr => rfl
    | other => rfl
  unfold processGepId
  rw [hfind]
  dsimp only
  rw [hq]
  cases hqv : qualifies f g0 with
  | none =>
    exact ⟨rfl, hids, htrk, hext, hnle, hWFF⟩
  | some d =>
    dsimp only
    refine ⟨rfl, ?_, ?_, ?_, ?_, ?_⟩
    · rw [rewriteGep_gepIds F gF d]
      exact hids
    · intro g1 hg1
      obtain ⟨gF1, hfind1, hid1, hname1, hkind1, hvt1, hztv1⟩ := htrk g1 hg1
      have hgF1in : gF1 ∈ F.instrs := List.mem_of_find?_eq_some hfind1
      have hid1lt : g1.id < F.nextId := by
        have h1 := hWFF.2.1 gF1 hgF1in
        omega
      have hfind1' : findInstr (rewriteGep F gF d) g1.id
          = some (redirectUses F gF.id (emitSequence F gF d).newPtrId gF1) := by
        rw [rewriteGep_findInstr_old F gF d g1.id hid1lt, hfind1]
        rfl
      have hbase : ∀ r : Nat, gepBase gF1 = VRef.ref r → r < F.nextId := by
        intro r hr
        have hWFops := hWFF.2.2.1 gF1 hgF1in
        cases hops1 : gF1.ops with
        | nil =>
          unfold gepBase at hr
          rw [hops1] at hr
          simp at hr
        | cons o rest =>
          have ho : o = VRef.ref r := by
            unfold gepBase at hr
            rw [hops1] at hr
            simpa using hr
          exact hWFops r (by rw [hops1, ← ho]; exact List.mem_cons_self _ _)
      have hstep := obs_step F gF d hWFF hgFin (gepBase gF1) hbase
      refine ⟨redirectUses F gF.id (emitSequence F gF d).newPtrId gF1, hfind1',
        ?_, ?_, ?_, ?_, ?_⟩
      · rw [redirectUses_id]
        exact hid1
      · rw [redirectUses_name]
        exact hname1
      · rw [redirectUses_kind]
        exact hkind1
      · rw [redirectUses_gepBase F gF.id (emitSequence F gF d).newPtrId gF1 hgF1in]
        rw [hstep.1]
        exact hvt1
      · rw [redirectUses_gepBase F gF.id (emitSequence F gF d).newPtrId gF1 hgF1in]
        rw [hstep.2]
        exact hztv1
    · rw [rewriteGep_extVals]
      exact hext
    · have hm := (rewriteGep_wfPreserve F gF d hWFF.1 hWFF.2.1).2.2
      omega
    · exact rewriteGep_stateWF F gF d hWFF hgFin

theorem runOnFuncAux_tracked (f : Func) (hfWF : stateWF f) :
    ∀ gids : List Nat, (∀ gid ∈ gids, ∃ g0 ∈ collectGeps f, g0.id = gid) →
    ∀ F, Tracked f F →
      (runOnFuncAux F gids).2
        = gids.countP (fun gid =>
            match findInstr f gid with
            | some gI => (qualifies f gI).isSome
            | none => false) ∧
      Tracked f (runOnFuncAux F gids).1 := by
  intro gids
  induction gids with
  | nil =>
    intro _ F htr
    exact ⟨by simp [runOnFuncAux], htr⟩
  | cons gid rest ih =>
    intro hmem F htr
    obtain ⟨g0, hg0, rfl⟩ := hmem gid (List.mem_cons_self _ _)
    have hstep := processGepId_tracked f F htr g0 hg0
    have ihron := ih (fun g' hg' => hmem g' (List.mem_cons_of_mem _ hg'))
      (processGepId F g0.id).1 hstep.2
    have hcan : findInstr f g0.id = some g0 :=
      findInstr_of_mem f hfWF.1 g0 (List.mem_of_mem_filter hg0)
    constructor
    · unfold runOnFuncAux
      rw [List.foldl_cons]
      dsimp only
      rw [runOnFuncAux_shift rest (processGepId F g0.id).1
        (0 + if (processGepId F g0.id).2 then 1 else 0)]
      dsimp only
      rw [List.countP_cons]
      rw [hcan]
      dsimp only
      rw [hstep.1, ihron.1]
      omega
    · unfold runOnFuncAux
      rw [List.foldl_cons]
      dsimp only
      rw [runOnFuncAux_shift rest (processGepId F g0.id).1
        (0 + if (processGepId F g0.id).2 then 1 else 0)]
      exact ihron.2

/-- Claim C3, amended: running the full transformation twice on an
unchanged function does not rewrite each original instruction only once —
the pass keeps no record of already-rewritten instructions, the dead
originals still structurally qualify, and on any function with
well-formed SSA id tables the second run performs exactly as many rewrites
as the first (one per original qualifying instruction), not zero. -/
theorem second_run_counts_match (f : Func)
    (hfp : f.instrs.Pairwise (fun a b => a.id ≠ b.id))
    (hflt : ∀ i ∈ f.instrs, i.id < f.nextId)
    (hopsb : ∀ i ∈ f.instrs, i.ops.all (vrefBound f.nextId) = true)
    (hexb : ∀ v ∈ f.extVals, v.id < f.nextId)
    (hdisj : ∀ v ∈ f.extVals, ∀ i ∈ f.instrs, v.id ≠ i.id) :
    rewritesPerformed (runOnFunc f) = rewritesPerformed f := by
  have hops : ∀ i ∈ f.instrs, ∀ r : Nat, VRef.ref r ∈ i.ops → r < f.nextId := by
    intro i hi r hr
    have := List.all_eq_true.mp (hopsb i hi) _ hr
    simpa [vrefBound] using this
  have hWF : stateWF f := ⟨hfp, hflt, hops, hexb, hdisj⟩
  have hmemlist : ∀ gid ∈ (collectGeps f).map (fun g => g.id),
      ∃ g0 ∈ collectGeps f, g0.id = gid := by
    intro gid hgid
    obtain ⟨gI, hgI, hid⟩ := List.mem_map.mp hgid
    exact ⟨gI, hgI, hid⟩
  have hrun1 := runOnFuncAux_tracked f hWF ((collectGeps f).map (fun g => g.id))
    hmemlist f (tracked_refl f hWF)
  unfold rewritesPerformed runOnFunc runOnFuncCount
  have hcg : (collectGeps (runOnFuncAux f ((collectGeps f).map (fun g => g.id))).1).map
      (fun g => g.id) = (collectGeps f).map (fun g => g.id) := hrun1.2.1
  rw [hcg]
  have hrun2 := runOnFuncAux_tracked f hWF ((collectGeps f).map (fun g => g.id))
    hmemlist _ hrun1.2
  rw [hrun2.1, hrun1.1]

theorem second_run_counts_match_witness :
    exChainFunc.instrs.Pairwise (fun a b => a.id ≠ b.id) ∧
    (∀ i ∈ exChainFunc.instrs, i.id < exChainFunc.nextId) ∧
    (∀ i ∈ exChainFunc.instrs, i.ops.all (vrefBound exChainFunc.nextId) = true) ∧
    (∀ v ∈ exChainFunc.extVals, v.id < exChainFunc.nextId) ∧
    (∀ v ∈ exChainFunc.extVals, ∀ i ∈ exChainFunc.instrs, v.id ≠ i.id) ∧
    rewritesPerformed (runOnFunc exChainFunc) = rewritesPerformed exChainFunc :=
  ⟨by decide, by decide, by decide, by decide, by decide,
   second_run_counts_match exChainFunc (by decide) (by decide) (by decide)
     (by decide) (by decide)⟩

end CanonPtr
